import Mathlib

set_option maxRecDepth 8000

/-!
Verification of the crawl / normalize / classify / extract / chunk pipeline of
src/main.py against its natural-language specification.

The embedding is executable throughout.  Python's `re` operations on the fixed
patterns of the source are modelled by a small backtracking regular-expression
engine (`Rgx`, `reParse`, `reSub`, `reFindall`) that explores matches in the
same priority order as CPython's engine (leftmost position first, alternation
left-first, quantifiers greedy with backtracking, non-overlapping scan for
findall/sub).  Character classes `\w`, `\s`, `\d` are modelled by the
corresponding ASCII predicates, which agree with Python on all inputs used in
the theorems below.
-/

/-- Concatenation of the lists produced by `f`; local stand-in for
`List.flatMap` with a stable API. -/
def cmap (f : α → List β) : List α → List β
  | [] => []
  | a :: t => f a ++ cmap f t

/-- Regular-expression abstract syntax covering the constructs used by the
patterns in src/main.py: single-character classes, concatenation, alternation,
greedy star and capturing groups. -/
inductive Rgx where
  | eps : Rgx
  | cls : (Char → Bool) → Rgx
  | cat : Rgx → Rgx → Rgx
  | alt : Rgx → Rgx → Rgx
  | star : Rgx → Rgx
  | grp : Rgx → Rgx

/-- All ways a pattern can match a prefix of the input, in the backtracking
priority order of Python's `re` engine: alternation tries the left branch
first, `star` is greedy (longer iterations first).  Each result is
(consumed prefix, captured groups outermost-first, remaining suffix).
`fuel` bounds the recursion depth and decreases on every recursive call;
iterations of `star` that consume nothing are cut off, which agrees with
Python on the source's patterns since every starred subpattern there consumes
at least one character per iteration. -/
def reParse : Nat → Rgx → List Char → List (List Char × List (List Char) × List Char)
  | 0, _, _ => []
  | _ + 1, .eps, s => [([], [], s)]
  | _ + 1, .cls _, [] => []
  | _ + 1, .cls p, c :: t => if p c then [([c], [], t)] else []
  | f + 1, .cat a b, s =>
      cmap (fun x => (reParse f b x.2.2).map (fun y => (x.1 ++ y.1, x.2.1 ++ y.2.1, y.2.2)))
        (reParse f a s)
  | f + 1, .alt a b, s => reParse f a s ++ reParse f b s
  | f + 1, .star a, s =>
      cmap (fun x =>
          if x.1.isEmpty then []
          else (reParse f (.star a) x.2.2).map (fun y => (x.1 ++ y.1, x.2.1 ++ y.2.1, y.2.2)))
        (reParse f a s)
      ++ [([], [], s)]
  | f + 1, .grp a, s => (reParse f a s).map (fun x => (x.1, x.1 :: x.2.1, x.2.2))

/-- Structural size of a pattern, used to compute a sufficient parse fuel. -/
def rgxSize : Rgx → Nat
  | .eps => 1
  | .cls _ => 1
  | .cat a b => rgxSize a + rgxSize b + 1
  | .alt a b => rgxSize a + rgxSize b + 1
  | .star a => rgxSize a + 1
  | .grp a => rgxSize a + 1

/-- Fuel that dominates the depth of any backtracking exploration of `re` on
`s` (each star iteration consumes at least one character). -/
def parseFuel (re : Rgx) (s : List Char) : Nat := (s.length + 1) * (rgxSize re + 2) + 8

/-- The match Python's engine reports at this position: the highest-priority
element of the exploration order. -/
def reFirst (re : Rgx) (F : Nat) (s : List Char) : Option (List Char × List (List Char) × List Char) :=
  (reParse F re s).head?

/-- Replacement template of a `re.sub` call in the source: a constant string
or the backreference `\1`. -/
inductive Repl where
  | const : List Char → Repl
  | group1 : Repl

def applyRepl : Repl → List (List Char) → List Char
  | .const r, _ => r
  | .group1, gs => gs.headD []

/-- One pass of `re.sub`: scan left to right, at each position try the pattern
(`multi` restricts attempts to line starts, modelling a `^`-anchored pattern
under `re.MULTILINE`); on a match emit the replacement and continue after the
consumed text, otherwise copy one character.  `F` is the parse fuel, the `Nat`
argument bounds the number of scan steps. -/
def subScan (re : Rgx) (rp : Repl) (multi : Bool) (F : Nat) : Nat → Bool → List Char → List Char
  | 0, _, s => s
  | _ + 1, _, [] => []
  | fuel + 1, atLS, c :: t =>
      if multi && !atLS then c :: subScan re rp multi F fuel (c == '\n') t
      else
        match reFirst re F (c :: t) with
        | none => c :: subScan re rp multi F fuel (c == '\n') t
        | some x =>
            if x.1.isEmpty then applyRepl rp x.2.1 ++ c :: subScan re rp multi F fuel (c == '\n') t
            else applyRepl rp x.2.1 ++ subScan re rp multi F fuel (x.1.getLast? == some '\n') x.2.2

/-- Python `re.sub(pattern, repl, s)` (with `re.MULTILINE` when `multi` is true). -/
def reSub (re : Rgx) (rp : Repl) (multi : Bool) (s : List Char) : List Char :=
  subScan re rp multi (parseFuel re s) (s.length + 1) true s

/-- Non-overlapping scan of `re.findall`: each reported element is capture
group 1 when the pattern has a group, the whole match otherwise. -/
def findScan (re : Rgx) (F : Nat) : Nat → List Char → List (List Char)
  | 0, _ => []
  | _ + 1, [] => []
  | fuel + 1, c :: t =>
      match reFirst re F (c :: t) with
      | none => findScan re F fuel t
      | some x =>
          (if x.2.1.isEmpty then x.1 else x.2.1.headD []) ::
            (if x.1.isEmpty then findScan re F fuel t else findScan re F fuel x.2.2)

/-- Python `re.findall(pattern, s)` for the source's patterns. -/
def reFindall (re : Rgx) (s : String) : List String :=
  (findScan re (parseFuel re s.data) (s.data.length + 1) s.data).map (fun l => String.mk l)

/- Pattern building blocks. -/

def chrR (c : Char) : Rgx := .cls (fun x => x == c)

/-- A literal character under `re.IGNORECASE`. -/
def chrCI (c : Char) : Rgx := .cls (fun x => x.toLower == c.toLower)

def litsL : List Char → Rgx
  | [] => .eps
  | c :: t => .cat (chrR c) (litsL t)

/-- A literal string, matched case-sensitively. -/
def lits (s : String) : Rgx := litsL s.data

def litsCIL : List Char → Rgx
  | [] => .eps
  | c :: t => .cat (chrCI c) (litsCIL t)

/-- A literal string under `re.IGNORECASE`. -/
def litsCI (s : String) : Rgx := litsCIL s.data

/-- The class `[chars]`. -/
def clsIn (s : String) : Rgx := .cls (fun x => s.data.contains x)

/-- The negated class `[^chars]`. -/
def clsNotIn (s : String) : Rgx := .cls (fun x => !s.data.contains x)

/-- Pattern `\s` (ASCII approximation of Python's whitespace class). -/
def wsR : Rgx := .cls (fun c => c.isWhitespace)

/-- Pattern `\d`. -/
def digitR : Rgx := .cls (fun c => c.isDigit)

/-- Pattern `\w` (ASCII approximation). -/
def wordR : Rgx := .cls (fun c => c.isAlphanum || c == '_')

/-- Greedy `r+`. -/
def plusR (r : Rgx) : Rgx := .cat r (.star r)

/-- Greedy `r?`. -/
def optR (r : Rgx) : Rgx := .alt r .eps

def seqNR (r : Rgx) : Nat → Rgx
  | 0 => .eps
  | n + 1 => .cat r (seqNR r n)

/-- Greedy `r{0,n}`. -/
def optNR (r : Rgx) : Nat → Rgx
  | 0 => .eps
  | n + 1 => .alt (.cat r (optNR r n)) .eps

/-- Greedy `r{lo,hi}`. -/
def repR (r : Rgx) (lo hi : Nat) : Rgx := .cat (seqNR r lo) (optNR r (hi - lo))

/-- Greedy `r{lo,}`. -/
def repAtLeast (r : Rgx) (lo : Nat) : Rgx := .cat (seqNR r lo) (.star r)

/-- Pattern `a|b|c|...`; only applied to non-empty lists. -/
def altsR : List Rgx → Rgx
  | [] => .eps
  | [r] => r
  | r :: t => .alt r (altsR t)

/- The eight patterns of clean_markdown_content (src/main.py lines 301-310),
in source order. -/

/-- Pattern `data:image/[^;]+;base64,[A-Za-z0-9+/=]+`. -/
def patDataImage : Rgx :=
  .cat (lits "data:image/") (.cat (plusR (clsNotIn ";"))
    (.cat (lits ";base64,")
      (plusR (.cls (fun c => c.isAlphanum || c == '+' || c == '/' || c == '=')))))

/-- Pattern `!\[([^\]]*)\]\([^)]+\)`. -/
def patImageMd : Rgx :=
  .cat (chrR '!') (.cat (chrR '[') (.cat (.grp (.star (clsNotIn "]")))
    (.cat (chrR ']') (.cat (chrR '(') (.cat (plusR (clsNotIn ")")) (chrR ')'))))))

/-- Pattern `\n\s*\n\s*\n+`. -/
def patTripleNl : Rgx :=
  .cat (chrR '\n') (.cat (.star wsR) (.cat (chrR '\n') (.cat (.star wsR) (plusR (chrR '\n')))))

/-- Pattern `\s+`. -/
def patWsRun : Rgx := plusR wsR

/-- Pattern `^#{1,6}\s*` (used with `re.MULTILINE`). -/
def patHeading : Rgx := .cat (repR (chrR '#') 1 6) (.star wsR)

/-- Pattern `\[([^\]]+)\]\([^)]+\)`. -/
def patLinkMd : Rgx :=
  .cat (chrR '[') (.cat (.grp (plusR (clsNotIn "]")))
    (.cat (chrR ']') (.cat (chrR '(') (.cat (plusR (clsNotIn ")")) (chrR ')')))))

/-- Pattern `\*+([^*]+)\*+`. -/
def patEmph : Rgx :=
  .cat (plusR (chrR '*')) (.cat (.grp (plusR (clsNotIn "*"))) (plusR (chrR '*')))

/-- Pattern `^\s*[\*\-\+]\s*` (used with `re.MULTILINE`). -/
def patBullet : Rgx := .cat (.star wsR) (.cat (clsIn "*-+") (.star wsR))

/-- Leading-whitespace trim. -/
def trimL (l : List Char) : List Char := l.dropWhile (fun c => c.isWhitespace)

/-- Python `str.strip()`. -/
def trimChars (l : List Char) : List Char :=
  ((trimL l).reverse.dropWhile (fun c => c.isWhitespace)).reverse

/-- Embedding of clean_markdown_content (src/main.py lines 301-310): the eight
`re.sub` passes in source order followed by `strip()`.  The bullet replacement
is the literal three-character sequence present in the source file. -/
def cleanChars (l : List Char) : List Char :=
  let l1 := reSub patDataImage (.const []) false l
  let l2 := reSub patImageMd .group1 false l1
  let l3 := reSub patTripleNl (.const ['\n', '\n']) false l2
  let l4 := reSub patWsRun (.const [' ']) false l3
  let l5 := reSub patHeading (.const []) true l4
  let l6 := reSub patLinkMd .group1 false l5
  let l7 := reSub patEmph .group1 false l6
  let l8 := reSub patBullet (.const ['â', '€', '¢', ' ']) true l7
  trimChars l8

def clean_markdown_content (s : String) : String := String.mk (cleanChars s.data)

/- Classification (src/main.py lines 312-322). -/

def isPrefixL : List Char → List Char → Bool
  | [], _ => true
  | _ :: _, [] => false
  | a :: as, b :: bs => a == b && isPrefixL as bs

/-- Substring test: Python's `pat in s`. -/
def infixL (pat : List Char) : List Char → Bool
  | [] => isPrefixL pat []
  | c :: t => isPrefixL pat (c :: t) || infixL pat t

def strContains (s pat : String) : Bool := infixL pat.data s.data

/-- Python `str.lower()` (ASCII approximation, exact on the source's keywords). -/
def lowerStr (s : String) : String := String.mk (s.data.map Char.toLower)

/-- Embedding of identify_content_type (src/main.py lines 312-322). -/
def identify_content_type (content : String) : String :=
  let cl := lowerStr content
  if strContains cl "jalur seleksi" then "admission_pathway"
  else if strContains cl "program studi" || strContains cl "jurusan" then "academic_program"
  else if strContains cl "fakultas" then "faculty_info"
  else if strContains cl "biaya" || strContains cl "ukt" then "fee_information"
  else if strContains cl "beasiswa" || strContains cl "kip" then "scholarship"
  else if strContains cl "pendaftaran" || strContains cl "daftar" then "registration"
  else if strContains cl "fasilitas" || strContains cl "kampus" then "facilities"
  else if strContains cl "alumni" || strContains cl "lulusan" then "alumni_info"
  else "general_info"

/-- Modelled from the spec: the classifier as an ordered table of
(keyword list, label) rules, "case-insensitive substring tests evaluated in a
fixed priority order; the first matching rule wins; if none match, result is
general_info". -/
def classifyRules : List (List String × String) :=
  [ (["jalur seleksi"], "admission_pathway")
  , (["program studi", "jurusan"], "academic_program")
  , (["fakultas"], "faculty_info")
  , (["biaya", "ukt"], "fee_information")
  , (["beasiswa", "kip"], "scholarship")
  , (["pendaftaran", "daftar"], "registration")
  , (["fasilitas", "kampus"], "facilities")
  , (["alumni", "lulusan"], "alumni_info") ]

def evalRulesAux : List (List String × String) → String → String
  | [], _ => "general_info"
  | (kws, lab) :: rest, cl => if kws.any (fun k => strContains cl k) then lab else evalRulesAux rest cl

def evalRules (content : String) : String := evalRulesAux classifyRules (lowerStr content)

/- Structured extractors (src/main.py lines 324-364). -/

/-- Python `str.strip()` on a String. -/
def strTrim (s : String) : String := String.mk (trimChars s.data)

/-- Pattern `jalur\s+([^.\n]+)` (IGNORECASE). -/
def patJalur : Rgx := .cat (litsCI "jalur") (.cat (plusR wsR) (.grp (plusR (clsNotIn ".\n"))))

/-- Pattern `seleksi\s+([^.\n]+)` (IGNORECASE). -/
def patSeleksi : Rgx := .cat (litsCI "seleksi") (.cat (plusR wsR) (.grp (plusR (clsNotIn ".\n"))))

/-- Pattern `pendaftaran\s+([^.\n]+)` (IGNORECASE). -/
def patPendaftaran : Rgx :=
  .cat (litsCI "pendaftaran") (.cat (plusR wsR) (.grp (plusR (clsNotIn ".\n"))))

/-- Pattern `(\d{1,2}\s+\w+\s+\d{4})`. -/
def patDate1 : Rgx :=
  .grp (.cat (repR digitR 1 2) (.cat (plusR wsR) (.cat (plusR wordR)
    (.cat (plusR wsR) (repR digitR 4 4)))))

/-- Pattern `(\d{1,2}/\d{1,2}/\d{4})`. -/
def patDate2 : Rgx :=
  .grp (.cat (repR digitR 1 2) (.cat (chrR '/') (.cat (repR digitR 1 2)
    (.cat (chrR '/') (repR digitR 4 4)))))

/-- Pattern `(\d{4}-\d{2}-\d{2})`. -/
def patDate3 : Rgx :=
  .grp (.cat (repR digitR 4 4) (.cat (chrR '-') (.cat (repR digitR 2 2)
    (.cat (chrR '-') (repR digitR 2 2)))))

/-- Embedding of extract_admission_info (src/main.py lines 324-330). -/
def extract_admission_info (content : String) : List (String × List String) :=
  let pathways := (reFindall patJalur content).map strTrim
    ++ (reFindall patSeleksi content).map strTrim
    ++ (reFindall patPendaftaran content).map strTrim
  let deadlines := reFindall patDate1 content ++ reFindall patDate2 content
    ++ reFindall patDate3 content
  [("pathways", pathways), ("requirements", []), ("deadlines", deadlines), ("contact_info", [])]

/-- Pattern `fakultas\s+([^.\n]+)` (IGNORECASE). -/
def patFakultas : Rgx := .cat (litsCI "fakultas") (.cat (plusR wsR) (.grp (plusR (clsNotIn ".\n"))))

/-- Pattern `program\s+studi\s+([^.\n]+)` (IGNORECASE). -/
def patProgramStudi : Rgx :=
  .cat (litsCI "program") (.cat (plusR wsR) (.cat (litsCI "studi")
    (.cat (plusR wsR) (.grp (plusR (clsNotIn ".\n"))))))

/-- Pattern `jurusan\s+([^.\n]+)` (IGNORECASE). -/
def patJurusan : Rgx := .cat (litsCI "jurusan") (.cat (plusR wsR) (.grp (plusR (clsNotIn ".\n"))))

/-- Pattern `prodi\s+([^.\n]+)` (IGNORECASE). -/
def patProdi : Rgx := .cat (litsCI "prodi") (.cat (plusR wsR) (.grp (plusR (clsNotIn ".\n"))))

/-- Pattern `(S1|S2|S3|D3|D4)` (IGNORECASE). -/
def patDegreeLevel : Rgx :=
  .grp (altsR [litsCI "S1", litsCI "S2", litsCI "S3", litsCI "D3", litsCI "D4"])

/-- Pattern `(sarjana|magister|doktor|diploma)` (IGNORECASE). -/
def patDegreeName : Rgx :=
  .grp (altsR [litsCI "sarjana", litsCI "magister", litsCI "doktor", litsCI "diploma"])

/-- Embedding of extract_program_info (src/main.py lines 332-340). -/
def extract_program_info (content : String) : List (String × List String) :=
  let faculties := (reFindall patFakultas content).map strTrim
  let programs := (reFindall patProgramStudi content).map strTrim
    ++ (reFindall patJurusan content).map strTrim
    ++ (reFindall patProdi content).map strTrim
  let degrees := reFindall patDegreeLevel content ++ reFindall patDegreeName content
  [("faculties", faculties), ("programs", programs), ("degrees", degrees), ("specializations", [])]

/-- Pattern `Rp\.?\s?(\d{1,3}(?:\.\d{3})*(?:,\d{2})?)` (IGNORECASE). -/
def patMoneyRp : Rgx :=
  .cat (litsCI "Rp") (.cat (optR (chrR '.')) (.cat (optR wsR)
    (.grp (.cat (repR digitR 1 3) (.cat (.star (.cat (chrR '.') (repR digitR 3 3)))
      (optR (.cat (chrR ',') (repR digitR 2 2))))))))

/-- Pattern `(\d+)\s*juta` (IGNORECASE). -/
def patMoneyJuta : Rgx := .cat (.grp (plusR digitR)) (.cat (.star wsR) (litsCI "juta"))

/-- Pattern `(\d+)\s*ribu` (IGNORECASE). -/
def patMoneyRibu : Rgx := .cat (.grp (plusR digitR)) (.cat (.star wsR) (litsCI "ribu"))

/-- Embedding of extract_fee_info (src/main.py lines 342-346). -/
def extract_fee_info (content : String) : List (String × List String) :=
  let fees := reFindall patMoneyRp content ++ reFindall patMoneyJuta content
    ++ reFindall patMoneyRibu content
  [("tuition_fees", fees), ("other_costs", []), ("payment_methods", [])]

/-- Pattern `beasiswa\s+([^.\n]+)` (IGNORECASE). -/
def patBeasiswa : Rgx := .cat (litsCI "beasiswa") (.cat (plusR wsR) (.grp (plusR (clsNotIn ".\n"))))

/-- Pattern `kip[^.\n]*` (IGNORECASE, no capture group: findall reports whole matches). -/
def patKip : Rgx := .cat (litsCI "kip") (.star (clsNotIn ".\n"))

/-- Pattern `bantuan\s+([^.\n]+)` (IGNORECASE). -/
def patBantuan : Rgx := .cat (litsCI "bantuan") (.cat (plusR wsR) (.grp (plusR (clsNotIn ".\n"))))

/-- Embedding of extract_scholarship_info (src/main.py lines 348-352). -/
def extract_scholarship_info (content : String) : List (String × List String) :=
  let types := (reFindall patBeasiswa content).map strTrim
    ++ (reFindall patKip content).map strTrim
    ++ (reFindall patBantuan content).map strTrim
  [("scholarship_types", types), ("eligibility", []), ("benefits", []),
   ("application_process", [])]

/-- Pattern `[-.\s]`. -/
def sepCls : Rgx := .cls (fun c => c == '-' || c == '.' || c.isWhitespace)

/-- Pattern `(\+?\d{2,4}[-.\s]?\d{3,4}[-.\s]?\d{3,4}[-.\s]?\d{0,4})` (no flag). -/
def patPhone : Rgx :=
  .grp (.cat (optR (chrR '+')) (.cat (repR digitR 2 4) (.cat (optR sepCls)
    (.cat (repR digitR 3 4) (.cat (optR sepCls) (.cat (repR digitR 3 4)
      (.cat (optR sepCls) (repR digitR 0 4))))))))

/-- Pattern `([a-zA-Z0-9._%+-]+@[a-zA-Z0-9.-]+\.[a-zA-Z]{2,})` (no flag). -/
def patEmail : Rgx :=
  .grp (.cat (plusR (.cls (fun c => c.isAlphanum || c == '.' || c == '_' || c == '%' || c == '+' || c == '-')))
    (.cat (chrR '@') (.cat (plusR (.cls (fun c => c.isAlphanum || c == '.' || c == '-')))
      (.cat (chrR '.') (repAtLeast (.cls (fun c => c.isAlpha)) 2)))))

/-- Pattern `(https?://[^\s]+)` (no flag). -/
def patUrl : Rgx :=
  .grp (.cat (lits "http") (.cat (optR (chrR 's')) (.cat (lits "://")
    (plusR (.cls (fun c => !c.isWhitespace))))))

/-- Pattern `(\d+)\s*(?:mahasiswa|alumni|dosen|program)` (IGNORECASE). -/
def patStat1 : Rgx :=
  .cat (.grp (plusR digitR)) (.cat (.star wsR)
    (altsR [litsCI "mahasiswa", litsCI "alumni", litsCI "dosen", litsCI "program"]))

/-- Pattern `(\d+)\s*(?:tahun|semester|bulan)` (IGNORECASE). -/
def patStat2 : Rgx :=
  .cat (.grp (plusR digitR)) (.cat (.star wsR)
    (altsR [litsCI "tahun", litsCI "semester", litsCI "bulan"]))

/-- Pattern `#(\d+)\s*(?:ranking|peringkat|terbaik)` (IGNORECASE). -/
def patStat3 : Rgx :=
  .cat (chrR '#') (.cat (.grp (plusR digitR)) (.cat (.star wsR)
    (altsR [litsCI "ranking", litsCI "peringkat", litsCI "terbaik"])))

/-- Embedding of extract_general_info (src/main.py lines 354-364).  In the
source, phone and email matches both land in `contacts` (the `'@' in
str(matches)` test and its else-branch extend the same list) and the URL
pattern lands in `links`; `key_points` is never filled. -/
def extract_general_info (content : String) : List (String × List String) :=
  let contacts := reFindall patPhone content ++ reFindall patEmail content
  let links := reFindall patUrl content
  let stats := reFindall patStat1 content ++ reFindall patStat2 content
    ++ reFindall patStat3 content
  [("key_points", []), ("contacts", contacts), ("links", links), ("statistics", stats)]

/- Chunking (src/main.py lines 366-380). -/

/-- Python `str.split()` at the character level: whitespace-delimited words,
empty pieces dropped; `acc` holds the current word reversed. -/
def wordsAcc : List Char → List Char → List (List Char)
  | acc, [] => if acc.isEmpty then [] else [acc.reverse]
  | acc, c :: t =>
      if c.isWhitespace then
        if acc.isEmpty then wordsAcc [] t else acc.reverse :: wordsAcc [] t
      else wordsAcc (c :: acc) t

/-- Python `content.split()`. -/
def pyW (s : String) : List (List Char) := wordsAcc [] s.data

/-- Python `' '.join(words)`. -/
def joinChars : List (List Char) → List Char
  | [] => []
  | [w] => w
  | w :: ws => w ++ ' ' :: joinChars ws

/-- A chunk record as built by create_text_chunks.  The short-document branch
of the source builds a dict without `start_position`/`end_position`; those
fields are `none` there. -/
structure Chunk where
  chunk_id : Nat
  text : String
  word_count : Nat
  start_position : Option Nat
  end_position : Option Nat
deriving Repr, DecidableEq

/-- Python `words[start:end]`. -/
def sliceW (words : List (List Char)) (s e : Nat) : List (List Char) :=
  (words.drop s).take (e - s)

/-- The chunk dict built in the loop body for window [s, e). -/
def mkChunk (words : List (List Char)) (cid s e : Nat) : Chunk :=
  ⟨cid, String.mk (joinChars (sliceW words s e)), e - s, some s, some e⟩

/-- The while loop of create_text_chunks; `none` models non-termination
(fuel exhaustion), which the Python loop exhibits when overlap ≥ size. -/
def chunkLoop (words : List (List Char)) (size ov : Nat) : Nat → Nat → Nat → Option (List Chunk)
  | 0, _, _ => none
  | fuel + 1, start, cid =>
      if start < words.length then
        let e := min (start + size) words.length
        if e = words.length then some [mkChunk words cid start e]
        else
          match chunkLoop words size ov fuel (e - ov) (cid + 1) with
          | none => none
          | some l => some (mkChunk words cid start e :: l)
      else some []

/-- Embedding of create_text_chunks (src/main.py lines 366-380). -/
def create_text_chunks (content : String) (chunk_size : Nat := 400) (overlap : Nat := 50) :
    Option (List Chunk) :=
  let words := pyW content
  if words.isEmpty then some []
  else if words.length ≤ chunk_size then some [⟨0, content, words.length, none, none⟩]
  else chunkLoop words chunk_size overlap (words.length + 1) 0 0

/-- The words of a chunk's text, as `str.split()` would report them. -/
def chunkWords (c : Chunk) : List (List Char) := wordsAcc [] c.text.data

/-- Concatenation of a chunk list "in chunkID order with each chunk's
overlapping prefix removed": the first chunk whole, every later chunk with its
first `ov` words dropped. -/
def reconChunks (ov : Nat) : List Chunk → List (List Char)
  | [] => []
  | c :: r => chunkWords c ++ cmap (fun d => (chunkWords d).drop ov) r

/-- Relational specification of the runs of the chunking loop, used to derive
the chunk-shape theorems: from offset `start` (with `start < len`) the loop
produces the window [start, min (start+size) len) and, unless that window
reaches the end, continues from `start + size - ov`. -/
inductive ChunkSpec (words : List (List Char)) (size ov : Nat) : Nat → Nat → List Chunk → Prop
  | last (start cid : Nat) (h : start < words.length) (he : words.length ≤ start + size) :
      ChunkSpec words size ov start cid [mkChunk words cid start words.length]
  | cons (start cid : Nat) (l : List Chunk) (h : start < words.length)
      (hlt : start + size < words.length)
      (tail : ChunkSpec words size ov (start + size - ov) (cid + 1) l) :
      ChunkSpec words size ov start cid (mkChunk words cid start (start + size) :: l)

/- Data-processing record (src/main.py lines 290-299).  The `source_file` and
`processed_at` fields of the source are identification/timestamp metadata and
are not modelled. -/

structure TelkomData where
  content_type : String
  structured_data : List (String × List String)
  text_chunks : Option (List Chunk)
deriving Repr

/-- Embedding of extract_telkom_data (src/main.py lines 290-299): the
content type comes from identify_content_type on the raw content, while the
structured-data profile is chosen by fresh keyword tests on the cleaned
content. -/
def extract_telkom_data (content : String) : TelkomData :=
  let cc := clean_markdown_content content
  let lc := lowerStr cc
  { content_type := identify_content_type content
    structured_data :=
      if strContains lc "jalur seleksi" then extract_admission_info cc
      else if strContains lc "program studi" || strContains lc "fakultas" then
        extract_program_info cc
      else if strContains lc "biaya" || strContains lc "ukt" then extract_fee_info cc
      else if strContains lc "beasiswa" then extract_scholarship_info cc
      else extract_general_info cc
    text_chunks := create_text_chunks cc }

/- Crawler (src/main.py lines 40-91). -/

def isSuffixL (pat s : List Char) : Bool := isPrefixL pat.reverse s.reverse

/-- Python `s.endswith(pat)`. -/
def strEndsWith (s pat : String) : Bool := isSuffixL pat.data s.data

/-- The netloc of an absolute URL, as `urlparse` reports it for the URLs this
crawl handles: the text between the first `://` and the next `/`, `?` or `#`
(empty when there is no `://`). -/
def netlocChars : List Char → List Char
  | [] => []
  | c :: t =>
      if isPrefixL [':', '/', '/'] (c :: t) then
        (t.drop 2).takeWhile (fun d => !(d == '/' || d == '?' || d == '#'))
      else netlocChars t

def netloc (u : String) : String := String.mk (netlocChars u.data)

def allowed_domain : String := "telkomuniversity.ac.id"

def start_url : String := "https://telkomuniversity.ac.id/"

def max_pages : Nat := 200

/-- The enqueue filter of src/main.py line 76:
`urlparse(absolute_link).netloc.endswith(allowed_domain) and absolute_link not
in visited_urls`. -/
def linkOk (visited : List String) (l : String) : Bool :=
  strEndsWith (netloc l) allowed_domain && !visited.contains l

/-- Crawl-loop state.  `fetched` and `enqueued` are history variables: every
URL for which an HTTP request was issued, and every URL ever appended to the
queue (including the seed), in order. -/
structure CrawlState where
  queue : List String
  visited : List String
  pages_crawled : Nat
  fetched : List String
  enqueued : List String
deriving Repr

def insertV (v : List String) (u : String) : List String :=
  if v.contains u then v else u :: v

/-- One iteration of the crawl while-loop body (src/main.py lines 62-88).
`world u = some links` models a successful fetch of a page whose anchors
resolve (via urljoin) to exactly `links`; `world u = none` models
requests raising a RequestException.  On success the URL is marked visited
before link extraction (line 71) and the page counter is incremented; on
failure the URL is marked visited (line 88) and the counter is not touched. -/
def crawlStep (world : String → Option (List String)) (s : CrawlState) : CrawlState :=
  match s.queue with
  | [] => s
  | current :: rest =>
      if s.visited.contains current then { s with queue := rest }
      else
        match world current with
        | some links =>
            let visited' := insertV s.visited current
            let newLinks := links.filter (linkOk visited')
            { queue := rest ++ newLinks
              visited := visited'
              pages_crawled := s.pages_crawled + 1
              fetched := s.fetched ++ [current]
              enqueued := s.enqueued ++ newLinks }
        | none =>
            { queue := rest
              visited := insertV s.visited current
              pages_crawled := s.pages_crawled
              fetched := s.fetched ++ [current]
              enqueued := s.enqueued }

/-- The crawl while loop: `while urls_to_visit and pages_crawled < max_pages`
(src/main.py line 62), with explicit fuel. -/
def crawlLoop (world : String → Option (List String)) (maxPages : Nat) :
    Nat → CrawlState → CrawlState
  | 0, s => s
  | fuel + 1, s =>
      match s.queue with
      | [] => s
      | _ :: _ =>
          if s.pages_crawled < maxPages then crawlLoop world maxPages fuel (crawlStep world s)
          else s

def initState : CrawlState := ⟨[start_url], [], 0, [], [start_url]⟩

/-- The /start-crawl endpoint's crawl (src/main.py lines 40-91), parameterized
by the abstract web and a fuel bound on loop iterations. -/
def start_telkom_crawl (world : String → Option (List String)) (fuel : Nat) : CrawlState :=
  crawlLoop world max_pages fuel initState

/-- Modelled from the spec: "its normalized host is equal to or a subdomain of
the configured allowed domain" — the eligibility test the spec prescribes for
candidate links, for comparison with the source's endswith test. -/
def specHostAllowed (host : String) : Bool :=
  host == allowed_domain || strEndsWith host ("." ++ allowed_domain)

/-- Success count among the attempted fetches: the pages for which the HTTP
request succeeded. -/
def successCount (world : String → Option (List String)) (l : List String) : Nat :=
  (l.filter (fun u => (world u).isSome)).length

/- Concrete webs used by counterexamples and witnesses. -/

def urlA : String := "https://telkomuniversity.ac.id/a"
def urlB : String := "https://telkomuniversity.ac.id/b"
def urlC : String := "https://telkomuniversity.ac.id/c"
def urlX : String := "https://telkomuniversity.ac.id/x"
def urlEvil : String := "https://eviltelkomuniversity.ac.id/"

/-- A web whose seed page links to a lookalike host that merely ends with the
allowed domain string. -/
def webEvil (u : String) : Option (List String) :=
  if u == start_url then some [urlEvil]
  else if u == urlEvil then some []
  else none

/-- A web with two failing pages between successes: seed succeeds and links to
a, b, c; a and b fail; c succeeds. -/
def webFail (u : String) : Option (List String) :=
  if u == start_url then some [urlA, urlB, urlC]
  else if u == urlC then some []
  else none

/-- A web in which the same URL x is reachable from two pages a and b. -/
def webDiamond (u : String) : Option (List String) :=
  if u == start_url then some [urlA, urlB]
  else if u == urlA then some [urlX]
  else if u == urlB then some [urlX]
  else if u == urlX then some []
  else none

/-- A 450-word document (words separated by single spaces). -/
def doc450 : String := String.mk (joinChars (List.replicate 450 ['w']))

/- Predicates used by the amended idempotence claim (C10). -/

/-- No two adjacent spaces. -/
def noDoubleSpace : List Char → Bool
  | [] => true
  | [_] => true
  | a :: b :: t => !(a == ' ' && b == ' ') && noDoubleSpace (b :: t)

/-- A string on which every pass of clean_markdown_content is the identity:
no markdown metacharacters `[`, `*`, `:`, the only whitespace is single
interior spaces, and it does not start with `#`, `-`, `+` or whitespace nor
end with whitespace. -/
def cleanInert (l : List Char) : Bool :=
  !l.contains '[' && !l.contains '*' && !l.contains ':' &&
  l.all (fun c => !c.isWhitespace || c == ' ') &&
  !l.contains '\n' &&
  noDoubleSpace l &&
  (match l.head? with
   | some c => !(c == ' ' || c == '#' || c == '-' || c == '+')
   | none => true) &&
  (match l.getLast? with
   | some c => !(c == ' ')
   | none => true)

/-- Patterns every one of whose matches must consume a character satisfying
`q`; used to show a pattern cannot match a string containing no such
character. -/
inductive MustConsume (q : Char → Bool) : Rgx → Prop
  | cls (p : Char → Bool) (h : ∀ c, p c = true → q c = true) : MustConsume q (.cls p)
  | catL (a b : Rgx) (ha : MustConsume q a) : MustConsume q (.cat a b)
  | catR (a b : Rgx) (hb : MustConsume q b) : MustConsume q (.cat a b)
  | alt (a b : Rgx) (ha : MustConsume q a) (hb : MustConsume q b) : MustConsume q (.alt a b)
  | grp (a : Rgx) (ha : MustConsume q a) : MustConsume q (.grp a)

/-- Patterns whose every match begins with a character satisfying `q`. -/
inductive FirstMust (q : Char → Bool) : Rgx → Prop
  | cls (p : Char → Bool) (h : ∀ c, p c = true → q c = true) : FirstMust q (.cls p)
  | cat (a b : Rgx) (ha : FirstMust q a) : FirstMust q (.cat a b)
  | grp (a : Rgx) (ha : FirstMust q a) : FirstMust q (.grp a)

/-- The source's domain test applied to a URL: the netloc ends with the
allowed domain string. -/
def domainOk (u : String) : Bool := strEndsWith (netloc u) allowed_domain

/-- Well-formedness of a word list produced by `str.split()`: every word is
non-empty and whitespace-free. -/
def WordsOK (words : List (List Char)) : Prop :=
  ∀ w ∈ words, w ≠ [] ∧ ∀ c ∈ w, c.isWhitespace = false

/-- Invariant of the crawl loop: attempted fetches are pairwise distinct and
all marked visited, every URL in the queue / fetch history / enqueue history
passes the domain test, and the page counter equals the number of successful
fetches. -/
def CrawlInv (world : String → Option (List String)) (s : CrawlState) : Prop :=
  s.fetched.Nodup ∧
  (∀ u ∈ s.fetched, s.visited.contains u = true) ∧
  (∀ u ∈ s.queue, domainOk u = true) ∧
  (∀ u ∈ s.fetched, domainOk u = true) ∧
  (∀ u ∈ s.enqueued, domainOk u = true) ∧
  s.pages_crawled = successCount world s.fetched

/- Generic lemmas about the regex engine. -/

theorem mem_cmap {f : α → List β} {b : β} : ∀ {l : List α}, b ∈ cmap f l ↔ ∃ a ∈ l, b ∈ f a := by
  intro l
  induction l with
  | nil => simp [cmap]
  | cons a t ih => simp [cmap, List.mem_append, ih]

theorem cmap_eq_nil {f : α → List β} {l : List α} (h : ∀ a ∈ l, f a = []) : cmap f l = [] := by
  induction l with
  | nil => rfl
  | cons a t ih =>
      simp [cmap, h a (by simp)]
      exact ih (fun a ha => h a (by simp [ha]))

theorem reParse_append :
    ∀ (f : Nat) (re : Rgx) (s : List Char) (x : List Char × List (List Char) × List Char),
      x ∈ reParse f re s → x.1 ++ x.2.2 = s := by
  intro f
  induction f with
  | zero => intro re s x hx; simp [reParse] at hx
  | succ f ih =>
    intro re s x hx
    cases re with
    | eps =>
        simp [reParse] at hx
        subst hx; rfl
    | cls p =>
        cases s with
        | nil => simp [reParse] at hx
        | cons c t =>
            cases hp : p c with
            | false => simp [reParse, hp] at hx
            | true =>
                simp [reParse, hp] at hx
                subst hx; rfl
    | cat a b =>
        rw [reParse, mem_cmap] at hx
        obtain ⟨xa, hxa, hx⟩ := hx
        rw [List.mem_map] at hx
        obtain ⟨y, hy, rfl⟩ := hx
        have h1 := ih a s xa hxa
        have h2 := ih b xa.2.2 y hy
        simpa [List.append_assoc, h2] using h1
    | alt a b =>
        rw [reParse, List.mem_append] at hx
        rcases hx with hx | hx
        · exact ih a s x hx
        · exact ih b s x hx
    | star a =>
        rw [reParse, List.mem_append] at hx
        rcases hx with hx | hx
        · rw [mem_cmap] at hx
          obtain ⟨xa, hxa, hx⟩ := hx
          rcases he : xa.1.isEmpty with _ | _
          · rw [he] at hx
            simp only [if_false, Bool.false_eq_true, List.mem_map] at hx
            obtain ⟨y, hy, rfl⟩ := hx
            have h1 := ih a s xa hxa
            have h2 := ih (.star a) xa.2.2 y hy
            simpa [List.append_assoc, h2] using h1
          · rw [he] at hx; simp at hx
        · simp at hx
          subst hx; rfl
    | grp a =>
        rw [reParse, List.mem_map] at hx
        obtain ⟨y, hy, rfl⟩ := hx
        exact ih a s y hy

theorem mustConsume_mem {q : Char → Bool} :
    ∀ (f : Nat) (re : Rgx), MustConsume q re → ∀ (s : List Char) x,
      x ∈ reParse f re s → ∃ ch ∈ x.1, q ch = true := by
  intro f
  induction f with
  | zero => intro re _ s x hx; simp [reParse] at hx
  | succ f ih =>
    intro re hm s x hx
    cases hm with
    | cls p hp =>
        cases s with
        | nil => simp [reParse] at hx
        | cons c t =>
            cases hpc : p c with
            | false => simp [reParse, hpc] at hx
            | true =>
                simp [reParse, hpc] at hx
                subst hx
                exact ⟨c, by simp, hp c hpc⟩
    | catL a b ha =>
        rw [reParse, mem_cmap] at hx
        obtain ⟨xa, hxa, hx⟩ := hx
        rw [List.mem_map] at hx
        obtain ⟨y, hy, rfl⟩ := hx
        obtain ⟨ch, hch, hq⟩ := ih a ha s xa hxa
        exact ⟨ch, by simp [hch], hq⟩
    | catR a b hb =>
        rw [reParse, mem_cmap] at hx
        obtain ⟨xa, hxa, hx⟩ := hx
        rw [List.mem_map] at hx
        obtain ⟨y, hy, rfl⟩ := hx
        obtain ⟨ch, hch, hq⟩ := ih b hb xa.2.2 y hy
        exact ⟨ch, by simp [hch], hq⟩
    | alt a b ha hb =>
        rw [reParse, List.mem_append] at hx
        rcases hx with hx | hx
        · exact ih a ha s x hx
        · exact ih b hb s x hx
    | grp a ha =>
        rw [reParse, List.mem_map] at hx
        obtain ⟨y, hy, rfl⟩ := hx
        exact ih a ha s y hy

theorem firstMust_mem {q : Char → Bool} :
    ∀ (f : Nat) (re : Rgx), FirstMust q re → ∀ (s : List Char) x,
      x ∈ reParse f re s → ∃ c t, s = c :: t ∧ q c = true := by
  intro f
  induction f with
  | zero => intro re _ s x hx; simp [reParse] at hx
  | succ f ih =>
    intro re hm s x hx
    cases hm with
    | cls p hp =>
        cases s with
        | nil => simp [reParse] at hx
        | cons c t =>
            cases hpc : p c with
            | false => simp [reParse, hpc] at hx
            | true => exact ⟨c, t, rfl, hp c hpc⟩
    | cat a b ha =>
        rw [reParse, mem_cmap] at hx
        obtain ⟨xa, hxa, _⟩ := hx
        exact ih a ha s xa hxa
    | grp a ha =>
        rw [reParse, List.mem_map] at hx
        obtain ⟨y, hy, _⟩ := hx
        exact ih a ha s y hy

theorem reParse_nil_mustConsume {q : Char → Bool} (f : Nat) (re : Rgx) (s : List Char)
    (hm : MustConsume q re) (h : ∀ ch ∈ s, q ch = false) : reParse f re s = [] := by
  apply List.eq_nil_iff_forall_not_mem.mpr
  intro x hx
  obtain ⟨ch, hch, hq⟩ := mustConsume_mem f re hm s x hx
  have hs := reParse_append f re s x hx
  have : ch ∈ s := by
    rw [← hs]
    exact List.mem_append.mpr (Or.inl hch)
  rw [h ch this] at hq
  exact Bool.false_ne_true hq

theorem reParse_nil_firstMust {q : Char → Bool} (f : Nat) (re : Rgx) (s : List Char)
    (hm : FirstMust q re) (h : ∀ c, s.head? = some c → q c = false) : reParse f re s = [] := by
  apply List.eq_nil_iff_forall_not_mem.mpr
  intro x hx
  obtain ⟨c, t, rfl, hq⟩ := firstMust_mem f re hm s x hx
  rw [h c rfl] at hq
  exact Bool.false_ne_true hq

theorem mem_reParse_cls {f : Nat} {p : Char → Bool} {s : List Char} {x}
    (hx : x ∈ reParse f (.cls p) s) : ∃ c t, s = c :: t ∧ p c = true ∧ x = ([c], [], t) := by
  cases f with
  | zero => simp [reParse] at hx
  | succ f =>
    cases s with
    | nil => simp [reParse] at hx
    | cons c t =>
        cases hp : p c with
        | false => simp [reParse, hp] at hx
        | true =>
            simp [reParse, hp] at hx
            exact ⟨c, t, rfl, hp, hx⟩

theorem mem_reParse_cat {f : Nat} {a b : Rgx} {s : List Char} {x}
    (hx : x ∈ reParse f (.cat a b) s) :
    ∃ f', f = f' + 1 ∧ ∃ xa, xa ∈ reParse f' a s ∧ ∃ y, y ∈ reParse f' b xa.2.2 ∧
      x = (xa.1 ++ y.1, xa.2.1 ++ y.2.1, y.2.2) := by
  cases f with
  | zero => simp [reParse] at hx
  | succ f =>
    refine ⟨f, rfl, ?_⟩
    rw [reParse, mem_cmap] at hx
    obtain ⟨xa, hxa, hx⟩ := hx
    rw [List.mem_map] at hx
    obtain ⟨y, hy, rfl⟩ := hx
    exact ⟨xa, hxa, y, hy, rfl⟩

theorem star_cls_chars {p : Char → Bool} :
    ∀ (f : Nat) (s : List Char) x, x ∈ reParse f (.star (.cls p)) s →
      ∀ ch ∈ x.1, p ch = true := by
  intro f
  induction f with
  | zero => intro s x hx; simp [reParse] at hx
  | succ f ih =>
    intro s x hx
    rw [reParse, List.mem_append] at hx
    rcases hx with hx | hx
    · rw [mem_cmap] at hx
      obtain ⟨xa, hxa, hx⟩ := hx
      obtain ⟨c, t, hs, hp, hxe⟩ := mem_reParse_cls hxa
      rw [hxe] at hx
      simp only [List.isEmpty_cons, if_false, Bool.false_eq_true, List.mem_map] at hx
      obtain ⟨y, hy, rfl⟩ := hx
      intro ch hch
      simp only [List.cons_append, List.nil_append, List.mem_cons] at hch
      rcases hch with rfl | hch
      · exact hp
      · exact ih t y hy ch hch
    · simp at hx
      subst hx
      intro ch hch
      simp at hch

theorem reParse_cls_nil {p : Char → Bool} (f : Nat) (s : List Char)
    (h : ∀ c, s.head? = some c → p c = false) : reParse f (.cls p) s = [] := by
  cases f with
  | zero => rfl
  | succ f =>
    cases s with
    | nil => rfl
    | cons c t => simp [reParse, h c rfl]

/- Pattern-specific facts used by the idempotence analysis of
clean_markdown_content. -/

theorem litsL_mustConsume {c : Char} :
    ∀ (l : List Char), c ∈ l → MustConsume (fun x => x == c) (litsL l) := by
  intro l
  induction l with
  | nil => intro h; simp at h
  | cons a t ih =>
      intro h
      rcases List.mem_cons.mp h with rfl | h
      · exact MustConsume.catL _ _ (MustConsume.cls _ (fun _ hx => hx))
      · exact MustConsume.catR _ _ (ih h)

theorem patDataImage_mustConsume : MustConsume (fun x => x == ':') patDataImage :=
  MustConsume.catL _ _ (litsL_mustConsume _ (by decide))

theorem patImageMd_mustConsume : MustConsume (fun x => x == '[') patImageMd :=
  MustConsume.catR _ _ (MustConsume.catL _ _ (MustConsume.cls _ (fun _ hx => hx)))

theorem patTripleNl_mustConsume : MustConsume (fun x => x == '\n') patTripleNl :=
  MustConsume.catL _ _ (MustConsume.cls _ (fun _ hx => hx))

theorem patLinkMd_mustConsume : MustConsume (fun x => x == '[') patLinkMd :=
  MustConsume.catL _ _ (MustConsume.cls _ (fun _ hx => hx))

theorem patEmph_mustConsume : MustConsume (fun x => x == '*') patEmph :=
  MustConsume.catL _ _ (MustConsume.catL _ _ (MustConsume.cls _ (fun _ hx => hx)))

theorem patHeading_firstMust : FirstMust (fun x => x == '#') patHeading :=
  FirstMust.cat _ _ (FirstMust.cat _ _ (FirstMust.cat _ _ (FirstMust.cls _ (fun _ hx => hx))))

theorem patWsRun_firstMust : FirstMust (fun c => c.isWhitespace) patWsRun :=
  FirstMust.cat _ _ (FirstMust.cls _ (fun _ hx => hx))

theorem reParse_bullet_nil (f : Nat) (s : List Char)
    (h : ∀ c, s.head? = some c → (c.isWhitespace || c == '*' || c == '-' || c == '+') = false) :
    reParse f patBullet s = [] := by
  apply List.eq_nil_iff_forall_not_mem.mpr
  intro x hx
  unfold patBullet at hx
  obtain ⟨f', rfl, xa, hxa, y, hy, rfl⟩ := mem_reParse_cat hx
  have hws : ∀ ch ∈ xa.1, ch.isWhitespace = true := star_cls_chars f' s xa hxa
  have happ := reParse_append f' (.star wsR) s xa hxa
  have hxa1 : xa.1 = [] := by
    cases hc : xa.1 with
    | nil => rfl
    | cons d ds =>
        exfalso
        have hd : d.isWhitespace = true := hws d (by simp [hc])
        rw [hc] at happ
        cases s with
        | nil => simp at happ
        | cons c t =>
            have hdc : d = c := by
              have h2 := happ
              simp only [List.cons_append] at h2
              exact (List.cons.injEq _ _ _ _ ▸ h2).1
            subst hdc
            have := h d rfl
            simp [hd] at this
  rw [hxa1] at happ
  simp only [List.nil_append] at happ
  rw [happ] at hy
  obtain ⟨f'', hf, ya, hya, z, hz, hyy⟩ := mem_reParse_cat hy
  obtain ⟨c, t, hs, hp, _⟩ := mem_reParse_cls hya
  have hdata : "*-+".data = ['*', '-', '+'] := rfl
  rw [hdata] at hp
  simp only [List.contains_cons, List.contains_nil, Bool.or_false, Bool.or_eq_true,
    beq_iff_eq] at hp
  have hc := h c (by rw [hs]; rfl)
  rcases hp with rfl | rfl | rfl <;> simp at hc

theorem reParse_wsRun_space (f : Nat) (t : List Char)
    (h : ∀ c, t.head? = some c → c.isWhitespace = false) :
    reParse (f + 2) patWsRun (' ' :: t) = [([' '], [], t)] := by
  have hsp : (' ' : Char).isWhitespace = true := by decide
  have h0 : reParse f (.cls fun c => c.isWhitespace) t = [] := reParse_cls_nil f t h
  show reParse (f + 1 + 1) patWsRun (' ' :: t) = [([' '], [], t)]
  simp [patWsRun, plusR, wsR, reParse, hsp, cmap, h0]

/- Identity lemmas for the substitution scans. -/

theorem subScan_id_nonanchored (re : Rgx) (rp : Repl) (F : Nat) :
    ∀ (fuel : Nat) (b : Bool) (l : List Char),
      (∀ s', s' <:+ l → reParse F re s' = []) → subScan re rp false F fuel b l = l := by
  intro fuel
  induction fuel with
  | zero => intro b l _; rfl
  | succ fuel ih =>
      intro b l h
      cases l with
      | nil => rfl
      | cons c t =>
          have h0 : reParse F re (c :: t) = [] := h (c :: t) (List.suffix_refl _)
          simp only [subScan, Bool.false_and, Bool.not_eq_true, if_neg, reFirst, h0,
            List.head?_nil]
          exact congrArg (List.cons c) (ih (c == '\n') t
            (fun s' hs' => h s' (hs'.trans (List.suffix_cons c t))))

theorem subScan_anch_false (re : Rgx) (rp : Repl) (F : Nat) :
    ∀ (fuel : Nat) (l : List Char), l.contains '\n' = false →
      subScan re rp true F fuel false l = l := by
  intro fuel
  induction fuel with
  | zero => intro l _; rfl
  | succ fuel ih =>
      intro l h
      cases l with
      | nil => rfl
      | cons c t =>
          simp only [List.contains_cons, Bool.or_eq_false_iff] at h
          have hc : (c == '\n') = false := by
            cases hq : c == '\n' with
            | false => rfl
            | true =>
                have : c = '\n' := eq_of_beq hq
                subst this
                simp at h
          simp only [subScan, Bool.not_false, Bool.and_true, if_pos, hc]
          exact congrArg (List.cons c) (ih t h.2)

theorem subScan_id_anchored (re : Rgx) (rp : Repl) (F fuel : Nat) (l : List Char)
    (hnl : l.contains '\n' = false) (h0 : reParse F re l = []) :
    subScan re rp true F fuel true l = l := by
  cases fuel with
  | zero => rfl
  | succ fuel =>
      cases l with
      | nil => rfl
      | cons c t =>
          simp only [List.contains_cons, Bool.or_eq_false_iff] at hnl
          have hc : (c == '\n') = false := by
            cases hq : c == '\n' with
            | false => rfl
            | true =>
                have : c = '\n' := eq_of_beq hq
                subst this
                simp at hnl
          simp only [subScan, Bool.not_true, Bool.and_false, if_neg, reFirst, h0,
            List.head?_nil, hc]
          rw [ite_self]
          exact congrArg (List.cons c) (subScan_anch_false re rp F fuel t hnl.2)

theorem not_eq_true_to_false {b : Bool} (h : (!b) = true) : b = false := by
  cases b
  · rfl
  · exact absurd h (by decide)

theorem contains_false_beq {a : Char} {l : List Char} (h : l.contains a = false) :
    ∀ ch ∈ l, (ch == a) = false := by
  intro ch hch
  cases heq : ch == a with
  | false => rfl
  | true =>
      exfalso
      have hca : ch = a := eq_of_beq heq
      subst hca
      have hmem : l.contains ch = true := by
        simp only [List.contains, List.elem_eq_mem, decide_eq_true_eq]
        exact hch
      rw [hmem] at h
      exact absurd h (by decide)

theorem noDoubleSpace_tail {a : Char} {l : List Char} (h : noDoubleSpace (a :: l) = true) :
    noDoubleSpace l = true := by
  cases l with
  | nil => rfl
  | cons b t =>
      rw [noDoubleSpace, Bool.and_eq_true] at h
      exact h.2

theorem subScan_wsRun_id :
    ∀ (fuel f : Nat) (b : Bool) (l : List Char),
      (∀ c ∈ l, c.isWhitespace = true → c = ' ') → noDoubleSpace l = true →
      subScan patWsRun (.const [' ']) false (f + 2) fuel b l = l := by
  intro fuel
  induction fuel with
  | zero => intro f b l _ _; rfl
  | succ fuel ih =>
      intro f b l hall hnd
      cases l with
      | nil => rfl
      | cons c t =>
          cases hws : c.isWhitespace with
          | false =>
              have h0 : reParse (f + 2) patWsRun (c :: t) = [] := by
                apply reParse_nil_firstMust (f + 2) patWsRun (c :: t) patWsRun_firstMust
                intro d hd
                simp only [List.head?_cons, Option.some.injEq] at hd
                subst hd
                exact hws
              simp only [subScan, Bool.false_and, Bool.not_eq_true, if_neg, reFirst, h0,
                List.head?_nil]
              exact congrArg (List.cons c) (ih f (c == '\n') t
                (fun d hd hw => hall d (by simp [hd]) hw) (noDoubleSpace_tail hnd))
          | true =>
              have hc : c = ' ' := hall c (by simp) hws
              subst hc
              have hth : ∀ d, t.head? = some d → d.isWhitespace = false := by
                intro d hd
                have hdm : d ∈ t := List.mem_of_mem_head? (Option.mem_def.mpr hd)
                cases hdw : d.isWhitespace with
                | false => rfl
                | true =>
                    exfalso
                    have hd2 : d = ' ' := hall d (by simp [hdm]) hdw
                    subst hd2
                    cases t with
                    | nil => simp at hd
                    | cons d' t' =>
                        have hd' : d' = ' ' := by
                          simp only [List.head?_cons, Option.some.injEq] at hd
                          exact hd
                        subst hd'
                        rw [noDoubleSpace] at hnd
                        simp at hnd
              have hm := reParse_wsRun_space f t hth
              simp only [subScan, Bool.false_and, Bool.not_eq_true, if_neg, reFirst, hm,
                List.head?_cons, List.isEmpty_cons, applyRepl]
              simp only [Bool.false_eq_true, if_false, List.singleton_append, List.cons.injEq,
                true_and]
              exact ih f _ t (fun d hd hw => hall d (by simp [hd]) hw) (noDoubleSpace_tail hnd)

theorem dropWhile_id_of_head {p : Char → Bool} (l : List Char)
    (h : ∀ c, l.head? = some c → p c = false) : l.dropWhile p = l := by
  cases l with
  | nil => rfl
  | cons c t => simp [List.dropWhile_cons, h c rfl]

theorem trimChars_id (l : List Char)
    (h1 : ∀ c, l.head? = some c → c.isWhitespace = false)
    (h2 : ∀ c, l.getLast? = some c → c.isWhitespace = false) : trimChars l = l := by
  have e1 : trimL l = l := dropWhile_id_of_head l h1
  rw [trimChars, e1]
  have e2 : l.reverse.dropWhile (fun c => c.isWhitespace) = l.reverse := by
    apply dropWhile_id_of_head
    intro c hc
    apply h2
    rwa [List.head?_reverse] at hc
  rw [e2, List.reverse_reverse]

theorem cleanChars_id (l : List Char) (h : cleanInert l = true) : cleanChars l = l := by
  rw [cleanInert] at h
  simp only [Bool.and_eq_true] at h
  obtain ⟨⟨⟨⟨⟨⟨⟨h1, h2⟩, h3⟩, h4⟩, h5⟩, h6⟩, h7⟩, h8⟩ := h
  have hbr := not_eq_true_to_false h1
  have hst := not_eq_true_to_false h2
  have hco := not_eq_true_to_false h3
  have hnl := not_eq_true_to_false h5
  have hwsOnly : ∀ c ∈ l, c.isWhitespace = true → c = ' ' := by
    intro c hc hw
    have hx := List.all_eq_true.mp h4 c hc
    rw [hw] at hx
    simpa using hx
  have hhead : ∀ c, l.head? = some c →
      ((c == ' ') = false ∧ (c == '#') = false ∧ (c == '-') = false ∧ (c == '+') = false) := by
    intro c hc
    rw [hc] at h7
    have h7' : (!(c == ' ' || c == '#' || c == '-' || c == '+')) = true := h7
    have h7f := not_eq_true_to_false h7'
    simp only [Bool.or_eq_false_iff] at h7f
    exact ⟨h7f.1.1.1, h7f.1.1.2, h7f.1.2, h7f.2⟩
  have hlast : ∀ c, l.getLast? = some c → (c == ' ') = false := by
    intro c hc
    rw [hc] at h8
    have h8' : (!(c == ' ')) = true := h8
    exact not_eq_true_to_false h8'
  have hheadws : ∀ c, l.head? = some c → c.isWhitespace = false := by
    intro c hc
    cases hw : c.isWhitespace with
    | false => rfl
    | true =>
        exfalso
        have hsp : c = ' ' :=
          hwsOnly c (List.mem_of_mem_head? (Option.mem_def.mpr hc)) hw
        have := (hhead c hc).1
        rw [hsp] at this
        simp at this
  have hlastws : ∀ c, l.getLast? = some c → c.isWhitespace = false := by
    intro c hc
    cases hw : c.isWhitespace with
    | false => rfl
    | true =>
        exfalso
        have hsp : c = ' ' := hwsOnly c (List.mem_of_getLast?_eq_some hc) hw
        have := hlast c hc
        rw [hsp] at this
        simp at this
  have e1 : reSub patDataImage (.const []) false l = l := by
    apply subScan_id_nonanchored
    intro s' hs'
    apply reParse_nil_mustConsume _ _ _ patDataImage_mustConsume
    intro ch hch
    exact contains_false_beq hco ch (hs'.sublist.subset hch)
  have e2 : reSub patImageMd .group1 false l = l := by
    apply subScan_id_nonanchored
    intro s' hs'
    apply reParse_nil_mustConsume _ _ _ patImageMd_mustConsume
    intro ch hch
    exact contains_false_beq hbr ch (hs'.sublist.subset hch)
  have e3 : reSub patTripleNl (.const ['\n', '\n']) false l = l := by
    apply subScan_id_nonanchored
    intro s' hs'
    apply reParse_nil_mustConsume _ _ _ patTripleNl_mustConsume
    intro ch hch
    exact contains_false_beq hnl ch (hs'.sublist.subset hch)
  have e4 : reSub patWsRun (.const [' ']) false l = l := by
    rw [reSub]
    obtain ⟨f, hf⟩ : ∃ f, parseFuel patWsRun l = f + 2 :=
      ⟨parseFuel patWsRun l - 2, by
        have h8le : 8 ≤ parseFuel patWsRun l := Nat.le_add_left 8 _
        omega⟩
    rw [hf]
    exact subScan_wsRun_id (l.length + 1) f true l hwsOnly h6
  have e5 : reSub patHeading (.const []) true l = l := by
    apply subScan_id_anchored _ _ _ _ _ hnl
    apply reParse_nil_firstMust _ _ _ patHeading_firstMust
    intro c hc
    exact (hhead c hc).2.1
  have e6 : reSub patLinkMd .group1 false l = l := by
    apply subScan_id_nonanchored
    intro s' hs'
    apply reParse_nil_mustConsume _ _ _ patLinkMd_mustConsume
    intro ch hch
    exact contains_false_beq hbr ch (hs'.sublist.subset hch)
  have e7 : reSub patEmph .group1 false l = l := by
    apply subScan_id_nonanchored
    intro s' hs'
    apply reParse_nil_mustConsume _ _ _ patEmph_mustConsume
    intro ch hch
    exact contains_false_beq hst ch (hs'.sublist.subset hch)
  have e8 : reSub patBullet (.const ['â', '€', '¢', ' ']) true l = l := by
    apply subScan_id_anchored _ _ _ _ _ hnl
    apply reParse_bullet_nil
    intro c hc
    have hcs := hhead c hc
    have hcm : c ∈ l := List.mem_of_mem_head? (Option.mem_def.mpr hc)
    rw [hheadws c hc, contains_false_beq hst c hcm, hcs.2.2.1, hcs.2.2.2]
    rfl
  have e9 : trimChars l = l := trimChars_id l hheadws hlastws
  simp only [cleanChars]
  rw [e1, e2, e3, e4, e5, e6, e7, e8, e9]

/- Word splitting: str.split() produces non-empty whitespace-free words, and
is a left inverse of ' '.join on such words. -/

theorem wordsAcc_props : ∀ (l acc : List Char), (∀ c ∈ acc, c.isWhitespace = false) →
    ∀ w ∈ wordsAcc acc l, w ≠ [] ∧ ∀ c ∈ w, c.isWhitespace = false := by
  intro l
  induction l with
  | nil =>
      intro acc hacc w hw
      rw [wordsAcc] at hw
      cases he : acc.isEmpty with
      | true => simp [he] at hw
      | false =>
          simp only [he, Bool.false_eq_true, if_false, List.mem_singleton] at hw
          subst hw
          have hne : acc ≠ [] := by
            intro hx; rw [hx] at he; simp at he
          refine ⟨by simpa using hne, ?_⟩
          intro c hc
          exact hacc c (List.mem_reverse.mp hc)
  | cons c t ih =>
      intro acc hacc w hw
      rw [wordsAcc] at hw
      cases hws : c.isWhitespace with
      | true =>
          simp only [hws, if_true] at hw
          cases he : acc.isEmpty with
          | true =>
              rw [he] at hw
              simp only [if_true] at hw
              exact ih [] (by simp) w hw
          | false =>
              rw [he] at hw
              simp only [Bool.false_eq_true, if_false, List.mem_cons] at hw
              rcases hw with rfl | hw
              · have hne : acc ≠ [] := by
                  intro hx; rw [hx] at he; simp at he
                refine ⟨by simpa using hne, ?_⟩
                intro d hd
                exact hacc d (List.mem_reverse.mp hd)
              · exact ih [] (by simp) w hw
      | false =>
          simp only [hws, Bool.false_eq_true, if_false] at hw
          refine ih (c :: acc) ?_ w hw
          intro d hd
          rcases List.mem_cons.mp hd with rfl | hd
          · exact hws
          · exact hacc d hd

theorem wordsAcc_push : ∀ (w rest acc : List Char), (∀ c ∈ w, c.isWhitespace = false) →
    wordsAcc acc (w ++ rest) = wordsAcc (w.reverse ++ acc) rest := by
  intro w
  induction w with
  | nil => intro rest acc _; simp
  | cons c w' ih =>
      intro rest acc hw
      have hc : c.isWhitespace = false := hw c (by simp)
      have hshow : (c :: w') ++ rest = c :: (w' ++ rest) := rfl
      rw [hshow, wordsAcc, hc, if_neg (by simp)]
      rw [ih rest (c :: acc) (fun d hd => hw d (by simp [hd]))]
      simp [List.reverse_cons, List.append_assoc]

theorem reverse_isEmpty_false {w : List Char} (h : w ≠ []) : w.reverse.isEmpty = false := by
  cases hr : w.reverse.isEmpty with
  | false => rfl
  | true =>
      exfalso
      apply h
      have : w.reverse = [] := by
        cases hw : w.reverse with
        | nil => rfl
        | cons a b => rw [hw] at hr; simp at hr
      simpa using congrArg List.reverse this

theorem joinChars_words : ∀ (ws : List (List Char)),
    (∀ w ∈ ws, w ≠ [] ∧ ∀ c ∈ w, c.isWhitespace = false) →
    wordsAcc [] (joinChars ws) = ws := by
  intro ws
  induction ws with
  | nil => intro _; rfl
  | cons w ws' ih =>
      intro h
      obtain ⟨hne, hnw⟩ := h w (by simp)
      cases ws' with
      | nil =>
          show wordsAcc [] (joinChars [w]) = [w]
          have hj : joinChars [w] = w := rfl
          rw [hj]
          have h0 : wordsAcc [] w = wordsAcc [] (w ++ []) := by rw [List.append_nil]
          rw [h0, wordsAcc_push w [] [] hnw, List.append_nil, wordsAcc,
            reverse_isEmpty_false hne]
          simp
      | cons w2 ws'' =>
          have hj : joinChars (w :: w2 :: ws'') = w ++ ' ' :: joinChars (w2 :: ws'') := rfl
          rw [hj, wordsAcc_push w _ [] hnw, List.append_nil, wordsAcc]
          have hsp : (' ' : Char).isWhitespace = true := by decide
          rw [hsp, if_pos rfl, reverse_isEmpty_false hne]
          simp only [Bool.false_eq_true, if_false, List.reverse_reverse]
          rw [ih (fun ww hww => h ww (by simp [hww]))]

theorem pyW_wordsOK (s : String) : WordsOK (pyW s) := by
  intro w hw
  exact wordsAcc_props s.data [] (by simp) w hw

theorem chunkWords_mkChunk (words : List (List Char)) (hw : WordsOK words) (cid s e : Nat) :
    chunkWords (mkChunk words cid s e) = sliceW words s e := by
  show wordsAcc [] (String.mk (joinChars (sliceW words s e))).data = sliceW words s e
  have hdata : (String.mk (joinChars (sliceW words s e))).data = joinChars (sliceW words s e) := rfl
  rw [hdata]
  apply joinChars_words
  intro w hwmem
  apply hw
  have hsub : List.Sublist (sliceW words s e) words :=
    List.Sublist.trans (( List.take_prefix _ _).sublist) ((List.drop_suffix _ _).sublist)
  exact hsub.subset hwmem

/- The chunking loop realizes the ChunkSpec relation. -/

theorem chunkLoop_spec (words : List (List Char)) (size ov : Nat) (hov : ov < size) :
    ∀ (fuel start cid : Nat), start < words.length → words.length - start ≤ fuel →
      ∃ l, chunkLoop words size ov fuel start cid = some l ∧
        ChunkSpec words size ov start cid l := by
  intro fuel
  induction fuel with
  | zero => intro start cid h1 h2; omega
  | succ fuel ih =>
      intro start cid h1 h2
      simp only [chunkLoop]
      rw [if_pos h1]
      by_cases he : min (start + size) words.length = words.length
      · rw [he, if_pos rfl]
        have hle : words.length ≤ start + size := by
          rw [← he]; exact Nat.min_le_left _ _
        exact ⟨_, rfl, ChunkSpec.last start cid h1 hle⟩
      · have hlt : start + size < words.length := by
          rcases Nat.lt_or_ge (start + size) words.length with hx | hx
          · exact hx
          · exfalso; apply he; omega
        have hmin : min (start + size) words.length = start + size :=
          Nat.min_eq_left (Nat.le_of_lt hlt)
        rw [hmin, if_neg (by omega)]
        obtain ⟨l, hl, hspec⟩ := ih (start + size - ov) (cid + 1) (by omega) (by omega)
        rw [hl]
        exact ⟨_, rfl, ChunkSpec.cons start cid l h1 hlt hspec⟩

theorem chunkSpec_head {words : List (List Char)} {size ov start cid : Nat} {l : List Chunk}
    (h : ChunkSpec words size ov start cid l) :
    ∃ c r, l = c :: r ∧ c.start_position = some start := by
  cases h with
  | last => exact ⟨_, _, rfl, rfl⟩
  | cons => exact ⟨_, _, rfl, rfl⟩

theorem chunkSpec_ids {words : List (List Char)} {size ov start cid : Nat} {l : List Chunk}
    (h : ChunkSpec words size ov start cid l) :
    l.map (fun c => c.chunk_id) = List.range' cid l.length := by
  induction h with
  | last s c hs he => simp [mkChunk]
  | cons s c l hs hlt tail ih =>
      simp only [List.map_cons, List.length_cons, mkChunk, ih]
      rw [List.range'_succ]

theorem chunkSpec_offsets {words : List (List Char)} {size ov start cid : Nat} {l : List Chunk}
    (hov : ov < size) (h : ChunkSpec words size ov start cid l) :
    ∀ c ∈ l, ∃ s e, c.start_position = some s ∧ c.end_position = some e ∧
      c.word_count = e - s ∧ s < e ∧ e ≤ words.length := by
  induction h with
  | last s c hs he =>
      intro ch hch
      rw [List.mem_singleton] at hch
      subst hch
      exact ⟨s, words.length, rfl, rfl, rfl, hs, Nat.le_refl _⟩
  | cons s c l hs hlt tail ih =>
      intro ch hch
      rcases List.mem_cons.mp hch with rfl | hch
      · exact ⟨s, s + size, rfl, rfl, rfl, by omega, by omega⟩
      · exact ih ch hch

theorem chunkSpec_chain {words : List (List Char)} {size ov start cid : Nat} {l : List Chunk}
    (h : ChunkSpec words size ov start cid l) :
    List.Chain' (fun a b => ∃ e, a.end_position = some e ∧ b.start_position = some (e - ov)) l := by
  induction h with
  | last => simp
  | cons s c l hs hlt tail ih =>
      obtain ⟨c2, r, rfl, hc2⟩ := chunkSpec_head tail
      rw [List.chain'_cons]
      exact ⟨⟨s + size, rfl, by rw [hc2]⟩, ih⟩

theorem chunkSpec_nonfinal {words : List (List Char)} {size ov start cid : Nat} {l : List Chunk}
    (h : ChunkSpec words size ov start cid l) :
    ∀ c ∈ l.dropLast, c.word_count = size ∧ c.end_position ≠ some words.length := by
  induction h with
  | last s c hs he => intro ch hch; simp at hch
  | cons s c l hs hlt tail ih =>
      intro ch hch
      obtain ⟨c2, r, rfl, _⟩ := chunkSpec_head tail
      rw [List.dropLast_cons₂, List.mem_cons] at hch
      rcases hch with rfl | hch
      · refine ⟨by simp only [mkChunk]; omega, ?_⟩
        simp only [mkChunk, ne_eq, Option.some.injEq]
        omega
      · exact ih ch hch

theorem chunkSpec_last_end {words : List (List Char)} {size ov start cid : Nat} {l : List Chunk}
    (h : ChunkSpec words size ov start cid l) :
    ∃ c, l.getLast? = some c ∧ c.end_position = some words.length := by
  induction h with
  | last s c hs he => exact ⟨_, rfl, rfl⟩
  | cons s c l hs hlt tail ih =>
      obtain ⟨c2, r, rfl, _⟩ := chunkSpec_head tail
      obtain ⟨cl, hcl, hce⟩ := ih
      refine ⟨cl, ?_, hce⟩
      rw [List.getLast?_cons_cons]
      exact hcl

theorem chunkSpec_coverage {words : List (List Char)} {size ov start cid : Nat} {l : List Chunk}
    (h : ChunkSpec words size ov start cid l) :
    ∀ i, start ≤ i → i < words.length →
      ∃ c ∈ l, ∃ s e, c.start_position = some s ∧ c.end_position = some e ∧ s ≤ i ∧ i < e := by
  induction h with
  | last s c hs he =>
      intro i hi1 hi2
      exact ⟨mkChunk words c s words.length, by simp, s, words.length, rfl, rfl, hi1, hi2⟩
  | cons s c l hs hlt tail ih =>
      intro i hi1 hi2
      by_cases hi : i < s + size
      · exact ⟨mkChunk words c s (s + size), by simp, s, s + size, rfl, rfl, hi1, hi⟩
      · obtain ⟨ch, hch, sx, ex, h3, h4, h5, h6⟩ := ih i (by omega) hi2
        exact ⟨ch, by simp [hch], sx, ex, h3, h4, h5, h6⟩

theorem chunkSpec_head_len {words : List (List Char)} {size ov start cid : Nat} {l : List Chunk}
    (hw : WordsOK words) (h : ChunkSpec words size ov start cid l) :
    ∃ c r, l = c :: r ∧
      (chunkWords c).length = min (start + size) words.length - start := by
  cases h with
  | last hs he =>
      refine ⟨_, _, rfl, ?_⟩
      rw [chunkWords_mkChunk words hw, sliceW, List.length_take, List.length_drop]
      omega
  | cons hs hlt tail =>
      refine ⟨_, _, rfl, ?_⟩
      rw [chunkWords_mkChunk words hw, sliceW, List.length_take, List.length_drop]
      omega

theorem chunkSpec_recon {words : List (List Char)} {size ov start cid : Nat} {l : List Chunk}
    (hov : ov < size) (hw : WordsOK words) (h : ChunkSpec words size ov start cid l) :
    reconChunks ov l = words.drop start := by
  induction h with
  | last s c hs he =>
      show chunkWords (mkChunk words c s words.length) ++
        cmap (fun d => (chunkWords d).drop ov) [] = words.drop s
      rw [chunkWords_mkChunk words hw]
      simp only [cmap, List.append_nil, sliceW]
      have hlen : (words.drop s).length = words.length - s := List.length_drop _ _
      rw [← hlen, List.take_length]
  | cons s c l hs hlt tail ih =>
      obtain ⟨c2, r, hl, hlen⟩ := chunkSpec_head_len hw tail
      have hlen2 : ov ≤ (chunkWords c2).length := by
        rw [hlen]; omega
      have hstep : cmap (fun d => (chunkWords d).drop ov) l = (reconChunks ov l).drop ov := by
        rw [hl]
        show cmap (fun d => (chunkWords d).drop ov) (c2 :: r) =
          (chunkWords c2 ++ cmap (fun d => (chunkWords d).drop ov) r).drop ov
        rw [List.drop_append_of_le_length hlen2]
        rfl
      show chunkWords (mkChunk words c s (s + size)) ++
        cmap (fun d => (chunkWords d).drop ov) l = words.drop s
      rw [hstep, ih, chunkWords_mkChunk words hw, List.drop_drop]
      have harith : s + size - ov + ov = s + size := by omega
      rw [harith, sliceW]
      have he : s + size - s = size := by omega
      rw [he]
      have hdd : words.drop (s + size) = (words.drop s).drop size := by
        rw [List.drop_drop]
      rw [hdd, List.take_append_drop]

/-- Unfolding of create_text_chunks in the long-document case. -/
theorem create_text_chunks_loop (content : String) (size ov : Nat) (hov : ov < size)
    (hlen : size < (pyW content).length) :
    ∃ l, create_text_chunks content size ov = some l ∧
      ChunkSpec (pyW content) size ov 0 0 l := by
  obtain ⟨l, hl, hs⟩ := chunkLoop_spec (pyW content) size ov hov ((pyW content).length + 1) 0 0
    (by omega) (by omega)
  refine ⟨l, ?_, hs⟩
  rw [create_text_chunks]
  have h1 : (pyW content).isEmpty = false := by
    cases hpw : pyW content with
    | nil => rw [hpw] at hlen; simp at hlen
    | cons a b => rfl
  show (if (pyW content).isEmpty = true then some [] else _) = some l
  rw [h1, if_neg (by simp), if_neg (by omega)]
  exact hl

/- Crawl-loop invariants. -/

theorem successCount_append (world : String → Option (List String)) (l : List String)
    (u : String) :
    successCount world (l ++ [u]) =
      successCount world l + (if (world u).isSome then 1 else 0) := by
  rw [successCount, successCount, List.filter_append, List.length_append]
  cases h : (world u).isSome with
  | true => simp [List.filter_cons, h]
  | false => simp [List.filter_cons, h]

theorem insertV_contains_self (v : List String) (u : String) :
    (insertV v u).contains u = true := by
  rw [insertV]
  by_cases h : v.contains u = true
  · rw [if_pos h]; exact h
  · rw [if_neg h]
    simp [List.contains_cons]

theorem insertV_contains_mono (v : List String) (u x : String) (h : v.contains x = true) :
    (insertV v u).contains x = true := by
  rw [insertV]
  by_cases hc : v.contains u = true
  · rw [if_pos hc]; exact h
  · rw [if_neg hc, List.contains_cons, h]
    simp

theorem crawlInv_init (world : String → Option (List String)) : CrawlInv world initState := by
  refine ⟨?_, ?_, ?_, ?_, ?_, ?_⟩
  · simp [initState]
  · intro u hu; simp [initState] at hu
  · intro u hu
    simp only [initState, List.mem_singleton] at hu
    subst hu
    decide
  · intro u hu; simp [initState] at hu
  · intro u hu
    simp only [initState, List.mem_singleton] at hu
    subst hu
    decide
  · simp [initState, successCount]

theorem crawlStep_inv (world : String → Option (List String)) (s : CrawlState)
    (h : CrawlInv world s) : CrawlInv world (crawlStep world s) := by
  obtain ⟨h1, h2, h3, h4, h5, h6⟩ := h
  cases hq : s.queue with
  | nil =>
      have hstep : crawlStep world s = s := by rw [crawlStep, hq]
      rw [hstep]
      exact ⟨h1, h2, h3, h4, h5, h6⟩
  | cons current rest =>
      have hstep0 : crawlStep world s =
          (if s.visited.contains current = true then { s with queue := rest }
           else
             match world current with
             | some links =>
                 { queue := rest ++ links.filter (linkOk (insertV s.visited current)),
                   visited := insertV s.visited current,
                   pages_crawled := s.pages_crawled + 1,
                   fetched := s.fetched ++ [current],
                   enqueued := s.enqueued ++ links.filter (linkOk (insertV s.visited current)) }
             | none =>
                 { queue := rest, visited := insertV s.visited current,
                   pages_crawled := s.pages_crawled,
                   fetched := s.fetched ++ [current], enqueued := s.enqueued }) := by
        rw [crawlStep, hq]
      rw [hstep0]
      by_cases hv : s.visited.contains current = true
      · rw [if_pos hv]
        refine ⟨h1, h2, ?_, h4, h5, h6⟩
        intro u hu
        exact h3 u (by rw [hq]; exact List.mem_cons_of_mem _ hu)
      · rw [if_neg hv]
        cases hw : world current with
        | some links =>
            have hcf : current ∉ s.fetched := fun hmem => hv (h2 current hmem)
            refine ⟨?_, ?_, ?_, ?_, ?_, ?_⟩
            · show (s.fetched ++ [current]).Nodup
              rw [List.nodup_append]
              refine ⟨h1, List.nodup_singleton _, ?_⟩
              intro a ha hb
              rw [List.mem_singleton] at hb
              subst hb
              exact hcf ha
            · intro u hu
              rw [List.mem_append] at hu
              rcases hu with hu | hu
              · exact insertV_contains_mono _ _ _ (h2 u hu)
              · rw [List.mem_singleton] at hu
                subst hu
                exact insertV_contains_self _ _
            · intro u hu
              rw [List.mem_append] at hu
              rcases hu with hu | hu
              · exact h3 u (by rw [hq]; exact List.mem_cons_of_mem _ hu)
              · have hf := (List.mem_filter.mp hu).2
                rw [linkOk, Bool.and_eq_true] at hf
                exact hf.1
            · intro u hu
              rw [List.mem_append] at hu
              rcases hu with hu | hu
              · exact h4 u hu
              · rw [List.mem_singleton] at hu
                subst hu
                exact h3 u (by rw [hq]; simp)
            · intro u hu
              rw [List.mem_append] at hu
              rcases hu with hu | hu
              · exact h5 u hu
              · have hf := (List.mem_filter.mp hu).2
                rw [linkOk, Bool.and_eq_true] at hf
                exact hf.1
            · show s.pages_crawled + 1 = successCount world (s.fetched ++ [current])
              rw [successCount_append, ← h6, hw]
              simp
        | none =>
            have hcf : current ∉ s.fetched := fun hmem => hv (h2 current hmem)
            refine ⟨?_, ?_, ?_, ?_, ?_, ?_⟩
            · show (s.fetched ++ [current]).Nodup
              rw [List.nodup_append]
              refine ⟨h1, List.nodup_singleton _, ?_⟩
              intro a ha hb
              rw [List.mem_singleton] at hb
              subst hb
              exact hcf ha
            · intro u hu
              rw [List.mem_append] at hu
              rcases hu with hu | hu
              · exact insertV_contains_mono _ _ _ (h2 u hu)
              · rw [List.mem_singleton] at hu
                subst hu
                exact insertV_contains_self _ _
            · intro u hu
              exact h3 u (by rw [hq]; exact List.mem_cons_of_mem _ hu)
            · intro u hu
              rw [List.mem_append] at hu
              rcases hu with hu | hu
              · exact h4 u hu
              · rw [List.mem_singleton] at hu
                subst hu
                exact h3 u (by rw [hq]; simp)
            · intro u hu
              exact h5 u hu
            · show s.pages_crawled = successCount world (s.fetched ++ [current])
              rw [successCount_append, ← h6, hw]
              simp

theorem crawlLoop_inv (world : String → Option (List String)) (maxPages : Nat) :
    ∀ (fuel : Nat) (s : CrawlState), CrawlInv world s →
      CrawlInv world (crawlLoop world maxPages fuel s) := by
  intro fuel
  induction fuel with
  | zero => intro s h; exact h
  | succ fuel ih =>
      intro s h
      cases hq : s.queue with
      | nil =>
          have hl : crawlLoop world maxPages (fuel + 1) s = s := by rw [crawlLoop, hq]
          rw [hl]
          exact h
      | cons a b =>
          have hl : crawlLoop world maxPages (fuel + 1) s =
              (if s.pages_crawled < maxPages then
                crawlLoop world maxPages fuel (crawlStep world s) else s) := by
            rw [crawlLoop, hq]
          rw [hl]
          by_cases hp : s.pages_crawled < maxPages
          · rw [if_pos hp]
            exact ih _ (crawlStep_inv world s h)
          · rw [if_neg hp]
            exact h

theorem crawlStep_pages (world : String → Option (List String)) (s : CrawlState) :
    (crawlStep world s).pages_crawled ≤ s.pages_crawled + 1 := by
  cases hq : s.queue with
  | nil =>
      have hstep : crawlStep world s = s := by rw [crawlStep, hq]
      rw [hstep]
      exact Nat.le_succ _
  | cons current rest =>
      have hstep0 : crawlStep world s =
          (if s.visited.contains current = true then { s with queue := rest }
           else
             match world current with
             | some links =>
                 { queue := rest ++ links.filter (linkOk (insertV s.visited current)),
                   visited := insertV s.visited current,
                   pages_crawled := s.pages_crawled + 1,
                   fetched := s.fetched ++ [current],
                   enqueued := s.enqueued ++ links.filter (linkOk (insertV s.visited current)) }
             | none =>
                 { queue := rest, visited := insertV s.visited current,
                   pages_crawled := s.pages_crawled,
                   fetched := s.fetched ++ [current], enqueued := s.enqueued }) := by
        rw [crawlStep, hq]
      rw [hstep0]
      by_cases hv : s.visited.contains current = true
      · rw [if_pos hv]
        exact Nat.le_succ _
      · rw [if_neg hv]
        cases hw : world current with
        | some links => exact Nat.le_refl _
        | none => exact Nat.le_succ _

theorem crawlLoop_pages (world : String → Option (List String)) (maxPages : Nat) :
    ∀ (fuel : Nat) (s : CrawlState), s.pages_crawled ≤ maxPages →
      (crawlLoop world maxPages fuel s).pages_crawled ≤ maxPages := by
  intro fuel
  induction fuel with
  | zero => intro s h; exact h
  | succ fuel ih =>
      intro s h
      cases hq : s.queue with
      | nil =>
          have hl : crawlLoop world maxPages (fuel + 1) s = s := by rw [crawlLoop, hq]
          rw [hl]
          exact h
      | cons a b =>
          have hl : crawlLoop world maxPages (fuel + 1) s =
              (if s.pages_crawled < maxPages then
                crawlLoop world maxPages fuel (crawlStep world s) else s) := by
            rw [crawlLoop, hq]
          rw [hl]
          by_cases hp : s.pages_crawled < maxPages
          · rw [if_pos hp]
            apply ih
            have := crawlStep_pages world s
            omega
          · rw [if_neg hp]
            exact h

/- Claim theorems. -/

/-- C1 (amended): identify_content_type performs its case-insensitive
substring tests exactly as the ordered rule table of the spec (first matching
rule wins, general_info when none matches), and a text containing both
"fakultas" and "beasiswa" never classifies as scholarship — but it classifies
as faculty_info (or an earlier category), not necessarily academic_program. -/
theorem C1_classifier_priority :
    (∀ content, identify_content_type content = evalRules content) ∧
    (∀ content, strContains (lowerStr content) "fakultas" = true →
      strContains (lowerStr content) "beasiswa" = true →
      (identify_content_type content = "admission_pathway" ∨
       identify_content_type content = "academic_program" ∨
       identify_content_type content = "faculty_info") ∧
      identify_content_type content ≠ "scholarship") := by
  constructor
  · intro content
    simp only [identify_content_type, evalRules, evalRulesAux, classifyRules, List.any_cons,
      List.any_nil, Bool.or_false]
  · intro content h1 _
    simp only [identify_content_type]
    by_cases hj : strContains (lowerStr content) "jalur seleksi" = true
    · rw [if_pos hj]
      exact ⟨Or.inl rfl, by decide⟩
    · rw [if_neg hj]
      by_cases hp : (strContains (lowerStr content) "program studi" ||
          strContains (lowerStr content) "jurusan") = true
      · rw [if_pos hp]
        exact ⟨Or.inr (Or.inl rfl), by decide⟩
      · rw [if_neg hp, if_pos h1]
        exact ⟨Or.inr (Or.inr rfl), by decide⟩

/-- C1 witness: the amended statement instantiated at "fakultas beasiswa". -/
theorem C1_classifier_priority_witness :
    strContains (lowerStr "fakultas beasiswa") "fakultas" = true ∧
    strContains (lowerStr "fakultas beasiswa") "beasiswa" = true ∧
    ((identify_content_type "fakultas beasiswa" = "admission_pathway" ∨
      identify_content_type "fakultas beasiswa" = "academic_program" ∨
      identify_content_type "fakultas beasiswa" = "faculty_info") ∧
     identify_content_type "fakultas beasiswa" ≠ "scholarship") :=
  ⟨by decide, by decide, C1_classifier_priority.2 "fakultas beasiswa" (by decide) (by decide)⟩

/-- C1 counterexample: "fakultas beasiswa" contains both keywords yet
classifies as faculty_info, refuting the claim that such a text always
classifies as academic_program. -/
theorem C1_classifier_counterexample :
    strContains (lowerStr "fakultas beasiswa") "fakultas" = true ∧
    strContains (lowerStr "fakultas beasiswa") "beasiswa" = true ∧
    identify_content_type "fakultas beasiswa" = "faculty_info" ∧
    identify_content_type "fakultas beasiswa" ≠ "academic_program" := by decide

/-- C2 (amended): every URL the crawl fetches has a netloc with the allowed
domain as a string suffix (the source's endswith test); this admits lookalike
hosts that merely end in the allowed-domain string. -/
theorem C2_domain_endswith (world : String → Option (List String)) (maxPages fuel : Nat)
    (u : String) (hu : u ∈ (crawlLoop world maxPages fuel initState).fetched) :
    domainOk u = true := by
  have hinv := crawlLoop_inv world maxPages fuel initState (crawlInv_init world)
  exact hinv.2.2.2.1 u hu

/-- C2 witness: the amended statement instantiated on a concrete one-step
crawl. -/
theorem C2_domain_endswith_witness :
    start_url ∈ (crawlLoop webFail 2 1 initState).fetched ∧
    domainOk start_url = true :=
  ⟨by decide, C2_domain_endswith webFail 2 1 start_url (by decide)⟩

/-- C2 counterexample: the crawl fetches https://eviltelkomuniversity.ac.id/,
whose host is neither equal to nor a subdomain of the allowed domain, because
the source checks only netloc.endswith(allowed_domain). -/
theorem C2_domain_counterexample :
    urlEvil ∈ (crawlLoop webEvil 200 5 initState).fetched ∧
    specHostAllowed (netloc urlEvil) = false := by decide

/-- C3 (amended): the crawl stops once the number of successful fetches
reaches the page limit — the page counter counts only successful fetches and
never exceeds the limit, while failed fetch attempts are not counted. -/
theorem C3_success_page_limit (world : String → Option (List String)) (maxPages fuel : Nat) :
    (crawlLoop world maxPages fuel initState).pages_crawled ≤ maxPages ∧
    (crawlLoop world maxPages fuel initState).pages_crawled =
      successCount world (crawlLoop world maxPages fuel initState).fetched := by
  constructor
  · exact crawlLoop_pages world maxPages fuel initState (by simp [initState])
  · exact (crawlLoop_inv world maxPages fuel initState (crawlInv_init world)).2.2.2.2.2

/-- C3 counterexample: with page limit 2, a crawl whose pages a and b fail
issues 4 HTTP fetches, refuting "at most N HTTP fetches are issued" for
fetches counted as success-or-failure. -/
theorem C3_fetch_limit_counterexample :
    (crawlLoop webFail 2 10 initState).fetched = [start_url, urlA, urlB, urlC] ∧
    webFail urlA = none ∧ webFail urlB = none ∧
    2 < (crawlLoop webFail 2 10 initState).fetched.length := by decide

/-- C4: no URL is fetched twice in a crawl — the fetch history is duplicate
free, and every fetched URL (successful or failed) is marked visited. -/
theorem C4_no_url_fetched_twice (world : String → Option (List String)) (maxPages fuel : Nat) :
    (crawlLoop world maxPages fuel initState).fetched.Nodup ∧
    ((crawlLoop world maxPages fuel initState).fetched.all
      (fun u => (crawlLoop world maxPages fuel initState).visited.contains u)) = true := by
  have hinv := crawlLoop_inv world maxPages fuel initState (crawlInv_init world)
  refine ⟨hinv.1, ?_⟩
  rw [List.all_eq_true]
  intro u hu
  exact hinv.2.1 u hu

/-- C9 (amended): a URL newly appended to the queue by a crawl step is not in
the visited set even after the step; already-visited URLs are never
re-enqueued (though an unvisited URL may be enqueued more than once). -/
theorem C9_enqueue_unvisited (world : String → Option (List String)) (s : CrawlState)
    (u : String) (hu : u ∈ (crawlStep world s).queue) :
    u ∈ s.queue ∨ (crawlStep world s).visited.contains u = false := by
  cases hq : s.queue with
  | nil =>
      have hstep : crawlStep world s = s := by rw [crawlStep, hq]
      rw [hstep] at hu
      rw [hq] at hu
      exact Or.inl hu
  | cons current rest =>
      have hstep0 : crawlStep world s =
          (if s.visited.contains current = true then { s with queue := rest }
           else
             match world current with
             | some links =>
                 { queue := rest ++ links.filter (linkOk (insertV s.visited current)),
                   visited := insertV s.visited current,
                   pages_crawled := s.pages_crawled + 1,
                   fetched := s.fetched ++ [current],
                   enqueued := s.enqueued ++ links.filter (linkOk (insertV s.visited current)) }
             | none =>
                 { queue := rest, visited := insertV s.visited current,
                   pages_crawled := s.pages_crawled,
                   fetched := s.fetched ++ [current], enqueued := s.enqueued }) := by
        rw [crawlStep, hq]
      rw [hstep0] at hu ⊢
      by_cases hv : s.visited.contains current = true
      · rw [if_pos hv] at hu ⊢
        exact Or.inl (List.mem_cons_of_mem _ hu)
      · rw [if_neg hv] at hu ⊢
        cases hw : world current with
        | some links =>
            rw [hw] at hu
            have hu' : u ∈ rest ++ links.filter (linkOk (insertV s.visited current)) := hu
            rw [List.mem_append] at hu'
            rcases hu' with hu' | hu'
            · exact Or.inl (List.mem_cons_of_mem _ hu')
            · right
              have hf := (List.mem_filter.mp hu').2
              rw [linkOk, Bool.and_eq_true] at hf
              show (insertV s.visited current).contains u = false
              exact not_eq_true_to_false hf.2
        | none =>
            rw [hw] at hu
            left
            exact List.mem_cons_of_mem _ hu

/-- C9 witness: the amended statement instantiated on the first crawl step. -/
theorem C9_enqueue_unvisited_witness :
    urlA ∈ (crawlStep webDiamond initState).queue ∧
    (urlA ∈ initState.queue ∨ (crawlStep webDiamond initState).visited.contains urlA = false) :=
  ⟨by decide, C9_enqueue_unvisited webDiamond initState urlA (by decide)⟩

/-- C9 counterexample: when pages a and b both link to the unvisited URL x,
the crawl appends x to the queue twice, refuting "a URL is enqueued at most
once across the crawl's lifetime". -/
theorem C9_enqueue_counterexample :
    (crawlLoop webDiamond 200 3 initState).enqueued.count urlX = 2 := by decide

/-- C5: for word sequences longer than the chunk size (with overlap < size,
without which the source loop does not terminate), chunking covers every word
index, the chunks are contiguous (each next chunk starts overlap words before
the previous end), chunk ids are sequential from 0, every non-final chunk
spans exactly size words, and the 450-word document with size 400 / overlap 50
yields exactly the two chunks [0,400) and [350,450). -/
theorem C5_chunk_shape (content : String) (size ov : Nat) (hov : ov < size)
    (hlen : size < (pyW content).length) :
    (∃ l, create_text_chunks content size ov = some l ∧
      l.map (fun c => c.chunk_id) = List.range' 0 l.length ∧
      List.Chain' (fun a b => ∃ e, a.end_position = some e ∧
        b.start_position = some (e - ov)) l ∧
      (∀ c ∈ l.dropLast, c.word_count = size) ∧
      (∀ i, i < (pyW content).length → ∃ c ∈ l, ∃ s e,
        c.start_position = some s ∧ c.end_position = some e ∧ s ≤ i ∧ i < e)) ∧
    (create_text_chunks doc450 400 50).map
        (fun l => l.map (fun c => (c.chunk_id, c.start_position, c.end_position))) =
      some [(0, some 0, some 400), (1, some 350, some 450)] := by
  constructor
  · obtain ⟨l, hl, hs⟩ := create_text_chunks_loop content size ov hov hlen
    refine ⟨l, hl, chunkSpec_ids hs, chunkSpec_chain hs,
      fun c hc => (chunkSpec_nonfinal hs c hc).1, ?_⟩
    intro i hi
    exact chunkSpec_coverage hs i (Nat.zero_le i) hi
  · decide

/-- C5 witness: the statement instantiated at the 450-word document with the
default parameters. -/
theorem C5_chunk_shape_witness :
    50 < 400 ∧ 400 < (pyW doc450).length ∧
    ((∃ l, create_text_chunks doc450 400 50 = some l ∧
      l.map (fun c => c.chunk_id) = List.range' 0 l.length ∧
      List.Chain' (fun a b => ∃ e, a.end_position = some e ∧
        b.start_position = some (e - 50)) l ∧
      (∀ c ∈ l.dropLast, c.word_count = 400) ∧
      (∀ i, i < (pyW doc450).length → ∃ c ∈ l, ∃ s e,
        c.start_position = some s ∧ c.end_position = some e ∧ s ≤ i ∧ i < e)) ∧
    (create_text_chunks doc450 400 50).map
        (fun l => l.map (fun c => (c.chunk_id, c.start_position, c.end_position))) =
      some [(0, some 0, some 400), (1, some 350, some 450)]) :=
  ⟨by decide, by decide, C5_chunk_shape doc450 400 50 (by decide) (by decide)⟩

/-- C6 (amended): for every input text (with overlap < size), concatenating
the chunks in chunkID order with each later chunk's overlapping prefix
removed reconstructs the original word sequence, and every chunk that records
offsets satisfies word_count = end - start; the single whole-text chunk built
for short inputs records no offsets at all. -/
theorem C6_chunk_reconstruction (content : String) (size ov : Nat) (hov : ov < size) :
    ∃ l, create_text_chunks content size ov = some l ∧
      reconChunks ov l = pyW content ∧
      ∀ c ∈ l, ∀ s e, c.start_position = some s → c.end_position = some e →
        c.word_count = e - s := by
  by_cases hemp : (pyW content).isEmpty = true
  · refine ⟨[], ?_, ?_, ?_⟩
    · show (if (pyW content).isEmpty = true then some [] else
        if (pyW content).length ≤ size then
          some [⟨0, content, (pyW content).length, none, none⟩]
        else chunkLoop (pyW content) size ov ((pyW content).length + 1) 0 0) = some []
      rw [if_pos hemp]
    · show reconChunks ov [] = pyW content
      rw [List.isEmpty_iff] at hemp
      rw [hemp]
      rfl
    · intro c hc
      simp at hc
  · by_cases hle : (pyW content).length ≤ size
    · refine ⟨[⟨0, content, (pyW content).length, none, none⟩], ?_, ?_, ?_⟩
      · show (if (pyW content).isEmpty = true then some [] else
          if (pyW content).length ≤ size then
            some [⟨0, content, (pyW content).length, none, none⟩]
          else chunkLoop (pyW content) size ov ((pyW content).length + 1) 0 0) =
          some [⟨0, content, (pyW content).length, none, none⟩]
        rw [if_neg hemp, if_pos hle]
      · show chunkWords ⟨0, content, (pyW content).length, none, none⟩ ++
          cmap (fun d => (chunkWords d).drop ov) [] = pyW content
        simp only [cmap, List.append_nil]
        rfl
      · intro c hc s e hs _
        rw [List.mem_singleton] at hc
        subst hc
        simp at hs
    · push_neg at hle
      obtain ⟨l, hl, hs⟩ := create_text_chunks_loop content size ov hov hle
      refine ⟨l, hl, ?_, ?_⟩
      · have hr := chunkSpec_recon hov (pyW_wordsOK content) hs
        rwa [List.drop_zero] at hr
      · intro c hc s e hsp hep
        obtain ⟨s', e', hs', he', hwc, _, _⟩ := chunkSpec_offsets hov hs c hc
        rw [hsp] at hs'
        rw [hep] at he'
        rw [← Option.some.inj hs', ← Option.some.inj he'] at hwc
        exact hwc

/-- C6 witness: the amended statement instantiated at a short two-word text
with the default parameters. -/
theorem C6_chunk_reconstruction_witness :
    50 < 400 ∧
    (∃ l, create_text_chunks "halo dunia" 400 50 = some l ∧
      reconChunks 50 l = pyW "halo dunia" ∧
      ∀ c ∈ l, ∀ s e, c.start_position = some s → c.end_position = some e →
        c.word_count = e - s) :=
  ⟨by decide, C6_chunk_reconstruction "halo dunia" 400 50 (by decide)⟩

/-- C6 counterexample: for the one-word text "a", the single returned chunk
has no startWordOffset/endWordOffset fields (the source's short-document
branch omits them), so "every chunk satisfies wordCount = endWordOffset -
startWordOffset" fails as stated. -/
theorem C6_offsets_counterexample :
    ∃ l, create_text_chunks "a" 400 50 = some l ∧
      ¬ (∀ c ∈ l, ∃ s e, c.start_position = some s ∧ c.end_position = some e ∧
          c.word_count = e - s) := by
  refine ⟨[⟨0, "a", 1, none, none⟩], by decide, ?_⟩
  intro h
  obtain ⟨s, e, hs, _, _⟩ := h ⟨0, "a", 1, none, none⟩ (List.mem_singleton.mpr rfl)
  simp at hs

/-- C7: for every input text and parameters with overlap strictly less than
size, the chunking loop terminates (the embedding returns some list), no
chunk is empty, and in the loop case exactly the final chunk has
endWordOffset equal to the total word count. -/
theorem C7_chunk_termination (content : String) (size ov : Nat) (hov : ov < size) :
    ∃ l, create_text_chunks content size ov = some l ∧
      (∀ c ∈ l, 0 < c.word_count) ∧
      (size < (pyW content).length →
        (∃ c, l.getLast? = some c ∧ c.end_position = some (pyW content).length) ∧
        ∀ c ∈ l.dropLast, c.end_position ≠ some (pyW content).length) := by
  by_cases hemp : (pyW content).isEmpty = true
  · refine ⟨[], ?_, ?_, ?_⟩
    · show (if (pyW content).isEmpty = true then some [] else
        if (pyW content).length ≤ size then
          some [⟨0, content, (pyW content).length, none, none⟩]
        else chunkLoop (pyW content) size ov ((pyW content).length + 1) 0 0) = some []
      rw [if_pos hemp]
    · intro c hc; simp at hc
    · intro hlen
      exfalso
      rw [List.isEmpty_iff] at hemp
      rw [hemp] at hlen
      simp at hlen
  · by_cases hle : (pyW content).length ≤ size
    · refine ⟨[⟨0, content, (pyW content).length, none, none⟩], ?_, ?_, ?_⟩
      · show (if (pyW content).isEmpty = true then some [] else
          if (pyW content).length ≤ size then
            some [⟨0, content, (pyW content).length, none, none⟩]
          else chunkLoop (pyW content) size ov ((pyW content).length + 1) 0 0) =
          some [⟨0, content, (pyW content).length, none, none⟩]
        rw [if_neg hemp, if_pos hle]
      · intro c hc
        rw [List.mem_singleton] at hc
        subst hc
        show 0 < (pyW content).length
        cases hpw : pyW content with
        | nil => rw [hpw] at hemp; exact absurd rfl hemp
        | cons a b => simp
      · intro hlen
        omega
    · push_neg at hle
      obtain ⟨l, hl, hs⟩ := create_text_chunks_loop content size ov hov hle
      refine ⟨l, hl, ?_, fun _ => ⟨chunkSpec_last_end hs,
        fun c hc => (chunkSpec_nonfinal hs c hc).2⟩⟩
      intro c hc
      obtain ⟨s', e', _, _, hwc, hslt, _⟩ := chunkSpec_offsets hov hs c hc
      omega

/-- C7 witness: the statement instantiated at the 450-word document with the
default parameters. -/
theorem C7_chunk_termination_witness :
    50 < 400 ∧
    (∃ l, create_text_chunks doc450 400 50 = some l ∧
      (∀ c ∈ l, 0 < c.word_count) ∧
      (400 < (pyW doc450).length →
        (∃ c, l.getLast? = some c ∧ c.end_position = some (pyW doc450).length) ∧
        ∀ c ∈ l.dropLast, c.end_position ≠ some (pyW doc450).length)) :=
  ⟨by decide, C7_chunk_termination doc450 400 50 (by decide)⟩

/-- C8 (amended): structured extraction selects exactly one of the five
field-extraction profiles by fresh case-insensitive keyword tests over the
cleaned content ('jalur seleksi' → admission, else 'program studi' or
'fakultas' → program, else 'biaya' or 'ukt' → fee, else 'beasiswa' →
scholarship, else general) — not by the classified contentType — and each
profile keeps duplicate matches (shown on a text with a repeated match). -/
theorem C8_extractor_dispatch :
    (∀ content,
      (strContains (lowerStr (clean_markdown_content content)) "jalur seleksi" = true →
        (extract_telkom_data content).structured_data =
          extract_admission_info (clean_markdown_content content)) ∧
      (strContains (lowerStr (clean_markdown_content content)) "jalur seleksi" = false →
        (strContains (lowerStr (clean_markdown_content content)) "program studi" ||
         strContains (lowerStr (clean_markdown_content content)) "fakultas") = true →
        (extract_telkom_data content).structured_data =
          extract_program_info (clean_markdown_content content)) ∧
      (strContains (lowerStr (clean_markdown_content content)) "jalur seleksi" = false →
        (strContains (lowerStr (clean_markdown_content content)) "program studi" ||
         strContains (lowerStr (clean_markdown_content content)) "fakultas") = false →
        (strContains (lowerStr (clean_markdown_content content)) "biaya" ||
         strContains (lowerStr (clean_markdown_content content)) "ukt") = true →
        (extract_telkom_data content).structured_data =
          extract_fee_info (clean_markdown_content content)) ∧
      (strContains (lowerStr (clean_markdown_content content)) "jalur seleksi" = false →
        (strContains (lowerStr (clean_markdown_content content)) "program studi" ||
         strContains (lowerStr (clean_markdown_content content)) "fakultas") = false →
        (strContains (lowerStr (clean_markdown_content content)) "biaya" ||
         strContains (lowerStr (clean_markdown_content content)) "ukt") = false →
        strContains (lowerStr (clean_markdown_content content)) "beasiswa" = true →
        (extract_telkom_data content).structured_data =
          extract_scholarship_info (clean_markdown_content content)) ∧
      (strContains (lowerStr (clean_markdown_content content)) "jalur seleksi" = false →
        (strContains (lowerStr (clean_markdown_content content)) "program studi" ||
         strContains (lowerStr (clean_markdown_content content)) "fakultas") = false →
        (strContains (lowerStr (clean_markdown_content content)) "biaya" ||
         strContains (lowerStr (clean_markdown_content content)) "ukt") = false →
        strContains (lowerStr (clean_markdown_content content)) "beasiswa" = false →
        (extract_telkom_data content).structured_data =
          extract_general_info (clean_markdown_content content))) ∧
    extract_admission_info "jalur a. jalur a." =
      [("pathways", ["a", "a"]), ("requirements", []), ("deadlines", []), ("contact_info", [])] := by
  constructor
  · intro content
    refine ⟨?_, ?_, ?_, ?_, ?_⟩
    · intro h1
      show (extract_telkom_data content).structured_data = _
      simp only [extract_telkom_data, h1, if_true]
    · intro h1 h2
      show (extract_telkom_data content).structured_data = _
      simp only [extract_telkom_data, h1, h2, Bool.false_eq_true, if_false, if_true]
    · intro h1 h2 h3
      show (extract_telkom_data content).structured_data = _
      simp only [extract_telkom_data, h1, h2, h3, Bool.false_eq_true, if_false, if_true]
    · intro h1 h2 h3 h4
      show (extract_telkom_data content).structured_data = _
      simp only [extract_telkom_data, h1, h2, h3, h4, Bool.false_eq_true, if_false, if_true]
    · intro h1 h2 h3 h4
      show (extract_telkom_data content).structured_data = _
      simp only [extract_telkom_data, h1, h2, h3, h4, Bool.false_eq_true, if_false]
  · decide

/-- C8 witness: the amended statement instantiated at a text whose cleaned
form contains "jalur seleksi". -/
theorem C8_extractor_dispatch_witness :
    strContains (lowerStr (clean_markdown_content "jalur seleksi mandiri")) "jalur seleksi"
      = true ∧
    (extract_telkom_data "jalur seleksi mandiri").structured_data =
      extract_admission_info (clean_markdown_content "jalur seleksi mandiri") :=
  ⟨by decide, (C8_extractor_dispatch.1 "jalur seleksi mandiri").1 (by decide)⟩

/-- C8 counterexample: the text "jurusan informatika" is classified as
academic_program (contentType), yet its structured data comes from the
general profile, not the program profile — extraction does not dispatch on
the classified contentType. -/
theorem C8_dispatch_counterexample :
    (extract_telkom_data "jurusan informatika").content_type = "academic_program" ∧
    (extract_telkom_data "jurusan informatika").structured_data =
      extract_general_info (clean_markdown_content "jurusan informatika") ∧
    (extract_telkom_data "jurusan informatika").structured_data ≠
      extract_program_info (clean_markdown_content "jurusan informatika") := by decide

/-- C10 (amended): clean_markdown_content is a pure function, and it is
idempotent on every input whose cleaned form is free of residual markdown
artifacts (no '[', '*', ':' or newline, single interior spaces only, not
beginning with '#', '-', '+' or whitespace, not ending in whitespace);
idempotence fails in general (see the counterexample). -/
theorem C10_normalize_idempotent (x : String)
    (h : cleanInert (clean_markdown_content x).data = true) :
    clean_markdown_content (clean_markdown_content x) = clean_markdown_content x := by
  have hdata : (clean_markdown_content x).data = cleanChars x.data := rfl
  rw [hdata] at h
  show String.mk (cleanChars (clean_markdown_content x).data) = clean_markdown_content x
  rw [hdata, cleanChars_id _ h]
  rfl

/-- C10 witness: the amended statement instantiated at "halo dunia". -/
theorem C10_normalize_idempotent_witness :
    cleanInert (clean_markdown_content "halo dunia").data = true ∧
    clean_markdown_content (clean_markdown_content "halo dunia") =
      clean_markdown_content "halo dunia" :=
  ⟨by decide, C10_normalize_idempotent "halo dunia" (by decide)⟩

/-- C10 counterexample: normalize is not idempotent on every input — on
nested link markdown a second pass removes another layer:
clean("[a[b](c)](d)") = "a[b](d)" but clean(clean(...)) = "ab". -/
theorem C10_idempotence_counterexample :
    clean_markdown_content (clean_markdown_content "[a[b](c)](d)") ≠
      clean_markdown_content "[a[b](c)](d)" := by decide
